import Mathlib

/-!
Verification of the image-localization pipeline of the jee-papers repository.

The JavaScript sources embedded here are the image Extractor and Fetcher
(the registry builder), the Rewriter (localize images in raw JSON files)
and the Verifier (verify-images.js).  JavaScript strings are modelled as
List Char; the small number of regular expressions used by the scripts are
literal-text patterns, modelled by explicit scanning functions that follow
the leftmost-match semantics of the JavaScript regexp engine.
-/

set_option maxRecDepth 4000

/-- JavaScript strings are modelled as lists of characters. -/
abbrev LC := List Char

/-- Coerce a Lean string literal to the list-of-characters model. -/
def strL (s : String) : LC := s.data

/-- Line terminators, the characters that the dot of a JavaScript regular
expression does not match. -/
def isLineTerm (c : Char) : Bool :=
  c = '\n' || c = '\r' || c = '\u2028' || c = '\u2029'

/-- Replacement of the first occurrence of a literal pattern, the semantics
of String.prototype.replace with a global-flag-free literal regexp. -/
def replaceFirst (pat repl : LC) : LC → LC
  | [] => []
  | c :: rest =>
    if pat.isPrefixOf (c :: rest) then repl ++ (c :: rest).drop pat.length
    else c :: replaceFirst pat repl rest

/-- Decidable substring containment, aligned with replaceFirst: it is true
exactly when replaceFirst finds a match. -/
def containsSub (pat : LC) : LC → Bool
  | [] => pat.isPrefixOf []
  | c :: rest => pat.isPrefixOf (c :: rest) || containsSub pat rest

/-- The resize path segment stripped by the canonicalization in
extractFromContent (part_001 lines 124-131) and getNormalizedUrl
(verify-images.js lines 37-42). -/
def flyPat : LC := strL ("/fly/@width/")

/-- Model of .replace(the fly regexp, a slash): replace the first occurrence
of the resize segment with a single slash. -/
def stripFly (s : LC) : LC := replaceFirst flyPat (strL ("/")) s

/-- Model of .replace of the query regexp with the empty string.  Without
the multiline flag the dollar anchors only at the end of input and the dot
does not cross line terminators, so the leftmost match starts at the first
question mark that has no line terminator after it, and everything from
that question mark to the end is removed. -/
def stripQuery : LC → LC
  | [] => []
  | c :: rest =>
    if c = '?' ∧ rest.all (fun x => !isLineTerm x) then []
    else c :: stripQuery rest

/-- URL canonicalization used by the Extractor and the Verifier: strip the
resize segment, then strip the query string. -/
def normalizeUrl (s : LC) : LC := stripQuery (stripFly s)

/-- Concrete URL on which canonicalizing twice differs from canonicalizing
once: the resize segment occurs twice, and a single replace only removes
the first occurrence. -/
def c1url : LC := strL ("https://cdn.example.com/fly/@width/fly/@width/img/q1.png")

/-! ### URL parsing and local path derivation

The scripts call the WHATWG URL parser (new URL) and the node path library
(path.flatten, path.relative).  These platform functions are modelled here:
parseHttpUrl covers absolute http and https URLs (host terminated by a
slash, colon, question mark or hash; the port skipped; dot segments of the
path resolved as the WHATWG path state does; empty path segments kept;
percent decoding and host case folding omitted), any other string fails to
parse just as new URL throws on a relative URL.  nodeJoinRel models
path.flatten followed by path.relative from the repository root: segments are
joined with slashes, empty and single-dot segments are dropped, double-dot
segments pop, and a trailing slash of the joined input is kept. -/

/-- Character that ends the host part of an http URL. -/
def isHostDelim (c : Char) : Bool := c == '/' || c == '?' || c == '#' || c == ':'

/-- Character that ends the path part of an http URL. -/
def isPathDelim (c : Char) : Bool := c == '?' || c == '#'

/-- Strip the http or https scheme of an absolute URL. -/
def stripScheme (s : LC) : Option LC :=
  if (strL ("https://")).isPrefixOf s then some (s.drop 8)
  else if (strL ("http://")).isPrefixOf s then some (s.drop 7)
  else none

/-- Split a string at every slash; the empty string yields one empty
segment. -/
def splitSlash : LC → List LC
  | [] => [[]]
  | c :: rest =>
    if c = '/' then [] :: splitSlash rest
    else
      match splitSlash rest with
      | [] => [[c]]
      | a :: t => (c :: a) :: t

/-- Join segments with slashes; the inverse of splitSlash. -/
def joinSlash : List LC → LC
  | [] => []
  | [a] => a
  | a :: b :: rest => a ++ '/' :: joinSlash (b :: rest)

/-- WHATWG path-state processing of the raw path segments: single dots
vanish, double dots pop the previous segment, and a trailing dot segment
leaves a trailing empty segment. -/
def procSegs : List LC → List LC → List LC
  | [], acc => acc.reverse
  | g :: rest, acc =>
    if g = ['.', '.'] then
      (if rest = [] then ([] :: acc.tail).reverse else procSegs rest acc.tail)
    else if g = ['.'] then
      (if rest = [] then ([] :: acc).reverse else procSegs rest acc)
    else procSegs rest (g :: acc)

/-- Hostname and pathname of a parsed URL, the two properties read by
getLocalImagePath. -/
structure UrlParts where
  hostname : LC
  pathname : LC
deriving DecidableEq

/-- Model of new URL for absolute http and https URLs: any other input
throws, which getLocalImagePath turns into an absent result. -/
def parseHttpUrl (s : LC) : Option UrlParts :=
  match stripScheme s with
  | none => none
  | some rest =>
    let host := rest.takeWhile (fun c => !isHostDelim c)
    if host = [] then none
    else
      let afterHost := rest.dropWhile (fun c => !isHostDelim c)
      let afterPort := afterHost.dropWhile (fun c => !(c == '/' || c == '?' || c == '#'))
      let rawPath := afterPort.takeWhile (fun c => !isPathDelim c)
      match rawPath with
      | '/' :: segsStr =>
        some ⟨host, '/' :: joinSlash (procSegs (splitSlash segsStr) [])⟩
      | _ => some ⟨host, strL ("/")⟩

/-- Dots of the hostname replaced by underscores (part_001 line 29). -/
def underscoreHost (h : LC) : LC := h.map (fun c => if c = '.' then '_' else c)

/-- One normalization step of the node path library: drop empty and
single-dot segments, pop on double dots. -/
def normStep (acc : List LC) (g : LC) : List LC :=
  if g = [] ∨ g = ['.'] then acc
  else if g = ['.', '.'] then
    match acc with
    | [] => [g]
    | h :: t => if h = ['.', '.'] then g :: acc else t
  else g :: acc

/-- Model of path.flatten on relative parts: concatenate with slashes and
normalize, keeping one trailing slash when the joined input ends with a
slash. -/
def nodeJoinRel (parts : List LC) : LC :=
  let joined := joinSlash parts
  let kept := ((splitSlash joined).foldl normStep []).reverse
  if kept = [] then strL (".")
  else
    joinSlash kept ++
      (if joined.getLast? = some '/' then strL ("/") else [])

/-- getLocalImagePath of part_001 lines 26-39, composed with the
path.relative of line 93: the repository-root-relative local path stored in
the registry, or an absent result when the URL fails to parse. -/
def getLocalImagePath (url : LC) : Option LC :=
  (parseHttpUrl url).map (fun u =>
    nodeJoinRel [strL ("images"), underscoreHost u.hostname, u.pathname])

/-! ### Quoted-attribute scanning

The scripts locate attributes with the literal regexps of the sources, all
of the shape literal text, a quote, one or more non-quote characters, a
closing quote.  splitQuotedAt models the leftmost match of such a pattern:
it returns the text before the match, the captured value and the text
after the match. -/

/-- Leftmost match of a pattern of shape pat plus a nonempty quoted value:
before the match, the capture, and after the match. -/
def splitQuotedAt (pat : LC) : LC → Option (LC × LC × LC)
  | [] => none
  | c :: rest =>
    let tl := (c :: rest).drop pat.length
    let cap := tl.takeWhile (fun x => !(x == '\"'))
    if pat.isPrefixOf (c :: rest) ∧ cap ≠ [] ∧ (tl.drop cap.length).head? = some '\"' then
      some ([], cap, tl.drop (cap.length + 1))
    else
      match splitQuotedAt pat rest with
      | some (b, cp, a) => some (c :: b, cp, a)
      | none => none

/-- The captured value of the leftmost quoted match, the semantics of
attributes.match of the source regexps. -/
def findQuoted (pat : LC) (s : LC) : Option LC :=
  (splitQuotedAt pat s).map (fun x => x.2.1)

/-- Replace the whole leftmost quoted match, the semantics of
attributes.replace with such a regexp and a plain replacement. -/
def replaceQuotedWith (pat repl : LC) (s : LC) : LC :=
  match splitQuotedAt pat s with
  | some (b, _, a) => b ++ repl ++ a
  | none => s

/-- Whitespace class of the JavaScript regexp engine (the common
characters; exotic unicode spaces do not occur in the corpus). -/
def isJsWs (c : Char) : Bool :=
  c == ' ' || c == '\t' || c == '\n' || c == '\r' || c == '\x0b' || c == '\x0c' || c == '\u00a0'

/-- Drop trailing whitespace. -/
def dropTrailingWs (s : LC) : LC := (s.reverse.dropWhile isJsWs).reverse

/-- Remove the leftmost quoted match together with the run of whitespace
immediately before it, the semantics of replacing a pattern that starts
with an optional whitespace run by the empty string. -/
def removeWsQuoted (pat : LC) (s : LC) : LC :=
  match splitQuotedAt pat s with
  | some (b, _, a) => dropTrailingWs b ++ a
  | none => s

/-- The marker-attribute pattern of the sources. -/
def dataOrsrcPat : LC := strL ("data-orsrc=\"")

/-- The rendering-attribute pattern of the sources. -/
def srcPat : LC := strL ("src=\"")

/-- First-match association lookup, the semantics of Map.get on maps with
unique keys. -/
def alookup {β : Type} (k : LC) : List (LC × β) → Option β
  | [] => none
  | (k2, v) :: rest => if k2 = k then some v else alookup k rest

/-! ### Registry data model and registration (part_001) -/

/-- One usage site recorded by registerImage (part_001 lines 100-107). -/
structure UsageSite where
  examType : LC
  examKey : LC
  subject : LC
  chapter : LC
  questionIndex : Nat
  location : LC
deriving DecidableEq

/-- Download status of a registry entry. -/
inductive RStatus where
  | pending
  | success
  | failed
deriving DecidableEq

/-- A registry entry as built by registerImage and mutated by the fetcher
steps of main (part_001). -/
structure RegEntry where
  url : LC
  localPath : LC
  status : RStatus
  usedIn : List UsageSite
  error : Option LC
deriving DecidableEq

/-- The in-memory image registry: a Map from canonical URL to entry,
modelled as an insertion-ordered association list with unique keys. -/
abbrev Registry := List (LC × RegEntry)

/-- Append a usage site to the entry of the given key, the push of
part_001 line 100. -/
def pushUsage : Registry → LC → UsageSite → Registry
  | [], _, _ => []
  | (k, e) :: rest, u, site =>
    if k = u then (k, { e with usedIn := e.usedIn ++ [site] }) :: rest
    else (k, e) :: pushUsage rest u site

/-- registerImage of part_001 lines 84-108: skip empty URLs, skip URLs
whose local path derivation fails, create the entry on first sight, then
record the usage site. -/
def registerImage (reg : Registry) (url : LC) (site : UsageSite) : Registry :=
  if url = [] then reg
  else
    match getLocalImagePath url with
    | none => reg
    | some lp =>
      let reg1 :=
        if (alookup url reg).isSome then reg
        else reg ++ [(url, ⟨url, lp, RStatus.pending, [], none⟩)]
      pushUsage reg1 url site

/-- HTML content is modelled as the alternation the tag regexp of the
sources induces: literal text and img tags carrying their attribute
text. -/
inductive Piece (α : Type) where
  | text (s : LC)
  | img (attrs : α)
deriving DecidableEq

/-- A content string, split at its img tags. -/
abbrev Content (α : Type) := List (Piece α)

/-- The per-question context captured by the registerImage closure of
extractAndRegisterImages. -/
structure ExtractCtx where
  examType : LC
  examKey : LC
  subject : LC
  chapter : LC
  questionIndex : Nat
deriving DecidableEq

/-- Build the usage site recorded for one location. -/
def mkSite (ctx : ExtractCtx) (loc : LC) : UsageSite :=
  ⟨ctx.examType, ctx.examKey, ctx.subject, ctx.chapter, ctx.questionIndex, loc⟩

/-- extractFromContent of part_001 lines 110-134: for every img tag prefer
the marker attribute, otherwise normalize the rendering attribute, and
register the result. -/
def extractFromContent (ctx : ExtractCtx) (reg : Registry) (content : Content LC)
    (loc : LC) : Registry :=
  content.foldl (fun r p =>
    match p with
    | Piece.text _ => r
    | Piece.img attrs =>
      match findQuoted dataOrsrcPat attrs with
      | some u => registerImage r u (mkSite ctx loc)
      | none =>
        match findQuoted srcPat attrs with
        | some sv => registerImage r (normalizeUrl sv) (mkSite ctx loc)
        | none => r) reg

/-- A context used by concrete examples. -/
def ctx0 : ExtractCtx := ⟨strL ("jee-main"), strL ("2024-01"), strL ("physics"), strL ("optics"), 1⟩

/-- Concrete URL used by witnesses. -/
def exUrl : LC := strL ("https://cdn.example.com/img/q1.png")

/-- The local path derived for exUrl. -/
def exPath : LC := strL ("images/cdn_example_com/img/q1.png")

/-- A concrete usage site in question content. -/
def siteQ : UsageSite := mkSite ctx0 (strL ("question"))

/-- A concrete usage site in an explanation. -/
def siteE : UsageSite := mkSite ctx0 (strL ("explanation"))

/-! ### Verifier (verify-images.js) -/

/-- Mismatch classes of the Verifier. -/
inductive VIssue where
  | not_localized
  | path_mismatch
deriving DecidableEq

/-- Counter increments and the recorded issue for one usage site of the
comparison loop. -/
structure SiteOutcome where
  matchedInc : Bool
  mismatchedInc : Bool
  missingInc : Bool
  issue : Option VIssue
deriving DecidableEq

/-- The local prefix tested by the Verifier (verify-images.js line 167). -/
def localImgPre : LC := strL ("../../images/")

/-- The per-site body of the comparison loop of compareFile
(verify-images.js lines 159-204): a site increments matched when the
localized src starts with the local prefix and, with the first relative
marker stripped, equals the path the registry maps the raw canonical URL
to; a missing file only increments the missing counter; otherwise the site
is mismatched with the issue class of the sources. -/
def compareSite (imageMap : List (LC × LC)) (fileExists : LC → Bool)
    (rawUrl localUrl : LC) : SiteOutcome :=
  if localImgPre.isPrefixOf localUrl then
    match alookup rawUrl imageMap with
    | some expected =>
      if expected = replaceFirst (strL ("../../")) [] localUrl then
        ⟨true, false, !fileExists (replaceFirst (strL ("../../")) [] localUrl), none⟩
      else ⟨false, true, false, some VIssue.path_mismatch⟩
    | none => ⟨false, true, false, some VIssue.path_mismatch⟩
  else ⟨false, true, false, some VIssue.not_localized⟩

/-! ### Registry persistence load (part_000 loadImageMapping)

The persisted registry document is a JSON value.  Member access on null
throws in JavaScript, which aborts the whole load through the catch that
exits the process; member access on any other value yields the field or
undefined.  getField returns none for the throwing case and some of the
JavaScript result otherwise. -/

/-- JSON values as produced by JSON.parse. -/
inductive Json where
  | null
  | bool (b : Bool)
  | num (n : Int)
  | str (s : LC)
  | arr (xs : List Json)
  | obj (fields : List (LC × Json))

/-- Field lookup in a JSON object. -/
def alookupJ : List (LC × Json) → LC → Option Json
  | [], _ => none
  | (k, v) :: rest, key => if k = key then some v else alookupJ rest key

/-- Property access on a non-null value: the field of an object, undefined
otherwise. -/
def jsGet (v : Json) (k : LC) : Option Json :=
  match v with
  | Json.obj fs => alookupJ fs k
  | _ => none

/-- Property access with the JavaScript throw on null: none models the
thrown TypeError, some the JavaScript result (undefined as some none). -/
def getField (v : Json) (k : LC) : Option (Option Json) :=
  match v with
  | Json.null => none
  | _ => some (jsGet v k)

/-- One iteration of the load: a throw while reading the entry status
aborts, a success-status entry contributes its url and localPath, any
other entry is skipped. -/
def loadStep (acc : List (Option Json × Option Json)) (img : Json) :
    Option (List (Option Json × Option Json)) :=
  match getField img (strL ("status")) with
  | none => none
  | some (some (Json.str st)) =>
    some (if st = strL ("success") then
        acc ++ [(jsGet img (strL ("url")), jsGet img (strL ("localPath")))]
      else acc)
  | some _ => some acc

/-- loadImageMapping of part_000 lines 22-44: parse failure, a missing or
non-array images field, or a throw while reading an entry status aborts
the load (process exit, modelled as none); entries whose status is the
string success contribute their url and localPath to the mapping in
order. -/
def loadImageMapping (doc : Json) : Option (List (Option Json × Option Json)) :=
  match getField doc (strL ("images")) with
  | none => none
  | some fv =>
    match fv with
    | some (Json.arr entries) => entries.foldlM loadStep []
    | _ => none

/-- The pairs the load keeps: one per entry whose status is the string
success, malformed entries contributing nothing. -/
def successPairs (entries : List Json) : List (Option Json × Option Json) :=
  entries.filterMap (fun img =>
    match jsGet img (strL ("status")) with
    | some (Json.str st) =>
      if st = strL ("success") then
        some (jsGet img (strL ("url")), jsGet img (strL ("localPath")))
      else none
    | _ => none)

/-- A well-formed success entry of a registry document. -/
def goodEntry : Json :=
  Json.obj [(strL ("url"), Json.str (strL ("https://h/a.png"))),
            (strL ("localPath"), Json.str (strL ("images/h/a.png"))),
            (strL ("status"), Json.str (strL ("success")))]

/-- A registry document holding one null entry and one good entry. -/
def badDoc : Json := Json.obj [(strL ("images"), Json.arr [Json.null, goodEntry])]

/-- A registry document holding one good entry and one malformed non-null
entry. -/
def c3doc : Json :=
  Json.obj [(strL ("images"), Json.arr [goodEntry, Json.str (strL ("oops"))])]

/-! ### Fetcher (part_001 downloadImage and main, steps 2-3)

Network and filesystem are oracles: the outcome of fetching a URL is an
event, either a response with an HTTP status and a flag telling whether
streaming the body to disk succeeded, or a thrown error (network failure,
timeout, mkdir failure). -/

/-- Outcome of one retrieval attempt. -/
inductive FetchEvent where
  | response (status : Nat) (writeOk : Bool)
  | netError (msg : LC)
deriving DecidableEq

/-- Body of the try block of downloadImage (part_001 lines 44-70): any
network error propagates, a non-2xx status throws, a streaming failure
throws, otherwise the download succeeds. -/
def fetchStep (ev : FetchEvent) : Except LC Unit :=
  match ev with
  | FetchEvent.netError m => Except.error m
  | FetchEvent.response status writeOk =>
    if 200 ≤ status ∧ status < 300 then
      (if writeOk then Except.ok () else Except.error (strL ("stream failed")))
    else Except.error (strL ("HTTP error"))

/-- downloadImage catches every throw of its try block and reports plain
success or failure. -/
def downloadImage (ev : FetchEvent) : Bool :=
  match fetchStep ev with
  | Except.ok _ => true
  | Except.error _ => false

/-- The per-entry update of the download loop (part_001 lines 259-268):
mark success, or mark failed and record the error message of the source. -/
def processEntry (net : LC → FetchEvent) (e : RegEntry) : RegEntry :=
  if downloadImage (net e.url) then { e with status := RStatus.success }
  else { e with status := RStatus.failed, error := some (strL ("Download failed")) }

/-- The download loop over a batch of pending entries, with explicit
exception propagation: an uncaught throw in an iteration would abort the
remaining batch through the error constructor. -/
def runBatch (net : LC → FetchEvent) : List RegEntry → Except LC (List RegEntry)
  | [] => Except.ok []
  | e :: rest =>
    match runBatch net rest with
    | Except.ok res => Except.ok (processEntry net e :: res)
    | Except.error m => Except.error m

/-- Step 2 of main (part_001 lines 236-243): mark every entry whose local
path exists on disk as success. -/
def preflight (ex : LC → Bool) (reg : List RegEntry) : List RegEntry :=
  reg.map (fun e => if ex e.localPath then { e with status := RStatus.success } else e)

/-- Steps 2 and 3 of main: preflight, then download exactly the entries
still pending; the second component lists the URLs for which a network
request is issued. -/
def fetcherRun (ex : LC → Bool) (net : LC → FetchEvent) (reg : List RegEntry) :
    List RegEntry × List LC :=
  ((preflight ex reg).map
     (fun e => if e.status = RStatus.pending then processEntry net e else e),
   ((preflight ex reg).filter (fun e => decide (e.status = RStatus.pending))).map
     (fun e => e.url))

/-- A network oracle that always fails. -/
def netFail : LC → FetchEvent := fun _ => FetchEvent.netError (strL ("ECONNRESET"))

/-- A concrete pending registry entry. -/
def pendingEntry : RegEntry := ⟨exUrl, exPath, RStatus.pending, [siteQ], none⟩

/-! ### Rewriter (part_000 replaceImageUrls) -/

/-- The attribute transformation of the replace callback of
replaceImageUrls (part_000 lines 57-110): prefer the marker attribute and,
when its URL maps to a localized path, replace the first src-quoted match
and remove the marker; otherwise normalize the first src value and replace
it when mapped; tags without a mapping are left untouched. -/
def rewriteTagAttrs (m : List (LC × LC)) (attrs : LC) : LC :=
  match findQuoted dataOrsrcPat attrs with
  | some originalUrl =>
    match alookup originalUrl m with
    | some localPath =>
      removeWsQuoted dataOrsrcPat
        (replaceQuotedWith srcPat (strL ("src=\"../../") ++ localPath ++ strL ("\"")) attrs)
    | none => attrs
  | none =>
    match findQuoted srcPat attrs with
    | some url =>
      match alookup (normalizeUrl url) m with
      | some localPath =>
        replaceQuotedWith srcPat (strL ("src=\"../../") ++ localPath ++ strL ("\"")) attrs
      | none => attrs
    | none => attrs

/-- The whole replaced tag: the img delimiters are reassembled verbatim,
so a tag is never dropped. -/
def rewriteImgTag (m : List (LC × LC)) (attrs : LC) : LC :=
  strL ("<img") ++ rewriteTagAttrs m attrs ++ strL (">")

/-- replaceImageUrls over a content string: text outside img tags is kept
verbatim, each img tag has its attributes rewritten. -/
def replaceImageUrls (m : List (LC × LC)) (content : Content LC) : Content LC :=
  content.map (fun p =>
    match p with
    | Piece.text t => Piece.text t
    | Piece.img attrs => Piece.img (rewriteTagAttrs m attrs))

/-- Attributes of a tag carrying both the rendering src and the marker. -/
def c5attrs : LC := strL (" src=\"https://h/x.png?v=1\" data-orsrc=\"https://h/x.png\"")

/-! ### Raw records and the record-level rewrite (part_000)

A raw exam record is the nested JSON shape of the sources; fields the
rewrite never touches are collected in a rest component of each node.  The
record is generic in the representation of img-tag attributes: the code
operates on flat attribute text (Record LC), the specification-level
rewrite on structured attribute lists, and rendering connects the two. -/

/-- One option block of a question. -/
structure OptionBlock (α : Type) where
  content : Option (Content α)
  rest : LC

/-- The localized-language block of a question. -/
structure QuestionEn (α : Type) where
  content : Option (Content α)
  options : Option (List (OptionBlock α))
  explanation : Option (Content α)
  rest : LC

/-- The question wrapper object. -/
structure QWrap (α : Type) where
  en : Option (QuestionEn α)
  rest : LC

/-- One question record. -/
structure Question (α : Type) where
  question : Option (QWrap α)
  rest : LC

/-- One subject block of a record. -/
structure Subject (α : Type) where
  questions : Option (List (Question α))
  rest : LC

/-- One raw exam record. -/
structure Record (α : Type) where
  results : Option (List (Subject α))
  rest : LC

/-- processQuestion of part_000 lines 122-154: records without a question
wrapper or localized block are returned unchanged; otherwise the three
content fields are rewritten (the source guards content and explanation
behind truthiness, and an empty content rewrites to itself, so the guard
and the plain map agree). -/
def processQuestion (m : List (LC × LC)) (q : Question LC) : Question LC :=
  match q.question with
  | none => q
  | some w =>
    match w.en with
    | none => q
    | some en =>
      { q with question := some { w with en := some {
          content := en.content.map (replaceImageUrls m),
          options := en.options.map (List.map (fun ob =>
            { ob with content := ob.content.map (replaceImageUrls m) })),
          explanation := en.explanation.map (replaceImageUrls m),
          rest := en.rest } } }

/-- The record transformation of processJsonFile (part_000 lines 172-182):
subjects and question order are preserved, each question processed. -/
def processJsonFile (m : List (LC × LC)) (r : Record LC) : Record LC :=
  match r.results with
  | none => r
  | some subs =>
    { r with results := some (subs.map (fun sd =>
        match sd.questions with
        | none => sd
        | some qs => { sd with questions := some (qs.map (processQuestion m)) })) }

/-! ### Structured attributes and the specification-level rewrite -/

/-- Structured attribute list of an img tag. -/
abbrev AttrL := List (LC × LC)

/-- Render one attribute as the sources write it. -/
def renderAttr (nv : LC × LC) : LC :=
  ' ' :: nv.1 ++ '=' :: '\"' :: nv.2 ++ ['\"']

/-- Render an attribute list to flat attribute text. -/
def renderAttrs (l : AttrL) : LC := (l.map renderAttr).flatten

/-- Whether an attribute name ends in src, the names the src regexp of the
sources can match at. -/
def hasSrcSfx (n : LC) : Bool := (strL ("src")).isSuffixOf n

/-- Value of the first attribute whose name has the given suffix: where
the corresponding quoted regexp matches in the rendered text. -/
def firstValBySfx (nm : LC) : AttrL → Option LC
  | [] => none
  | (n, v) :: rest =>
    if nm.isSuffixOf n then some v else firstValBySfx nm rest

/-- Value of the first attribute named data-orsrc. -/
def firstMarkerVal : AttrL → Option LC
  | [] => none
  | (n, v) :: rest =>
    if n = strL ("data-orsrc") then some v else firstMarkerVal rest

/-- Update the value of the first attribute whose name ends in src. -/
def updateFirstSrc (v2 : LC) : AttrL → AttrL
  | [] => []
  | (n, v) :: rest =>
    if hasSrcSfx n then (n, v2) :: rest else (n, v) :: updateFirstSrc v2 rest

/-- Remove the first attribute named data-orsrc. -/
def removeFirstMarker : AttrL → AttrL
  | [] => []
  | (n, v) :: rest =>
    if n = strL ("data-orsrc") then rest else (n, v) :: removeFirstMarker rest

/-- The structured description of what the rewrite callback does to one
tag: with a mapped marker URL, update the value of the first src-suffixed
attribute (which is the marker itself when the marker precedes src, and
the src attribute otherwise) and drop the marker; with no marker, update
the first src-suffixed attribute when its normalized value is mapped;
otherwise leave the tag alone.  Every field other than src-suffixed
attribute values and the removed marker is untouched. -/
def structRewriteAttrs (m : List (LC × LC)) (l : AttrL) : AttrL :=
  match firstMarkerVal l with
  | some u =>
    match alookup u m with
    | some lp => removeFirstMarker (updateFirstSrc (strL ("../../") ++ lp) l)
    | none => l
  | none =>
    match firstValBySfx (strL ("src")) l with
    | some sv =>
      match alookup (normalizeUrl sv) m with
      | some lp => updateFirstSrc (strL ("../../") ++ lp) l
      | none => l
    | none => l

/-- Well-formed attribute name: nonempty, free of quote, equals and
whitespace characters, and following the tag convention of the sources,
under which the only names ending in src are src itself and the marker. -/
def goodName (n : LC) : Prop :=
  n ≠ [] ∧ (∀ c ∈ n, c ≠ '\"' ∧ c ≠ '=' ∧ isJsWs c = false) ∧
    (hasSrcSfx n = true → n = strL ("src") ∨ n = strL ("data-orsrc"))

/-- Well-formed attribute value: nonempty (the quoted regexps require one
or more value characters), quote free, and not ending in an equals sign
(which would let the src pattern match across the closing quote). -/
def goodVal (v : LC) : Prop :=
  v ≠ [] ∧ (∀ c ∈ v, c ≠ '\"') ∧ v.getLast? ≠ some '='

/-- Well-formed attribute list. -/
def wfAttrs (l : AttrL) : Prop := ∀ nv ∈ l, goodName nv.1 ∧ goodVal nv.2

/-- Well-formed image map: localized paths are quote free and do not end
in an equals sign. -/
def wfMap (m : List (LC × LC)) : Prop :=
  ∀ nv ∈ m, (∀ c ∈ nv.2, c ≠ '\"') ∧ nv.2.getLast? ≠ some '='

instance (n : LC) : Decidable (goodName n) := by
  unfold goodName; infer_instance

instance (v : LC) : Decidable (goodVal v) := by
  unfold goodVal; infer_instance

instance (l : AttrL) : Decidable (wfAttrs l) := by
  unfold wfAttrs; infer_instance

instance (m : List (LC × LC)) : Decidable (wfMap m) := by
  unfold wfMap; infer_instance

/-! ### Generic traversals connecting the two representations -/

/-- Map a function over the img attributes of a content string. -/
def mapContent (f : α → β) (c : Content α) : Content β :=
  c.map (fun p =>
    match p with
    | Piece.text t => Piece.text t
    | Piece.img a => Piece.img (f a))

/-- Map over an option block. -/
def mapOB (f : α → β) (ob : OptionBlock α) : OptionBlock β :=
  ⟨ob.content.map (mapContent f), ob.rest⟩

/-- Map over a localized block. -/
def mapQEn (f : α → β) (en : QuestionEn α) : QuestionEn β :=
  ⟨en.content.map (mapContent f), en.options.map (List.map (mapOB f)),
   en.explanation.map (mapContent f), en.rest⟩

/-- Map over a question. -/
def mapQ (f : α → β) (q : Question α) : Question β :=
  ⟨q.question.map (fun w => ⟨w.en.map (mapQEn f), w.rest⟩), q.rest⟩

/-- Map over a subject. -/
def mapSubj (f : α → β) (sd : Subject α) : Subject β :=
  ⟨sd.questions.map (List.map (mapQ f)), sd.rest⟩

/-- Map over a record. -/
def mapRecord (f : α → β) (r : Record α) : Record β :=
  ⟨r.results.map (List.map (mapSubj f)), r.rest⟩

/-- The img attributes embedded in a content string. -/
def tagsContent (c : Content α) : List α :=
  c.filterMap (fun p =>
    match p with
    | Piece.img a => some a
    | _ => none)

/-- The img attributes embedded in a localized block. -/
def tagsQEn (en : QuestionEn α) : List α :=
  ((en.content.map tagsContent).getD []) ++
  ((en.options.map (fun obs =>
      (obs.map (fun ob => (ob.content.map tagsContent).getD [])).flatten)).getD []) ++
  ((en.explanation.map tagsContent).getD [])

/-- The img attributes embedded in a question. -/
def tagsQ (q : Question α) : List α :=
  match q.question with
  | some w =>
    match w.en with
    | some en => tagsQEn en
    | none => []
  | none => []

/-- The img attributes embedded in a subject. -/
def tagsSubj (sd : Subject α) : List α :=
  (sd.questions.map (fun qs => (qs.map tagsQ).flatten)).getD []

/-- The img attributes embedded in a record. -/
def tagsRecord (r : Record α) : List α :=
  (r.results.map (fun subs => (subs.map tagsSubj).flatten)).getD []

/-- A quoted pattern: literal name text, an equals sign and the opening
quote, the common shape of the three attribute regexps of the sources. -/
def patNm (nm : LC) : LC := nm ++ ['=', '\"']

/-- Conditions on the literal name of a quoted pattern: nonempty and free
of quote, equals and whitespace characters. -/
def nmOK (nm : LC) : Prop :=
  nm ≠ [] ∧ ∀ c ∈ nm, c ≠ '\"' ∧ c ≠ '=' ∧ isJsWs c = false

/-- Attribute text of a tag carrying a lowsrc attribute before its src
attribute. -/
def c9attrs : LC := strL (" lowsrc=\"https://h/a.png\" src=\"https://h/b.png\"")

/-- A one-entry image map used by the record examples. -/
def c9map : List (LC × LC) := [(strL ("https://h/a.png"), strL ("images/h/a.png"))]

/-- A structured tag following the convention: src first, then the
marker. -/
def c9attrL : AttrL :=
  [(strL ("src"), strL ("https://h/b.png")),
   (strL ("data-orsrc"), strL ("https://h/a.png"))]

/-- A concrete localized block holding one text piece and one img tag. -/
def c9en : QuestionEn AttrL :=
  ⟨some [Piece.text (strL ("see ")), Piece.img c9attrL], none, none, strL ("")⟩

/-- A concrete question. -/
def c9q : Question AttrL := ⟨some ⟨some c9en, strL ("")⟩, strL ("")⟩

/-- A concrete one-subject one-question record. -/
def c9rec : Record AttrL := ⟨some [⟨some [c9q], strL ("physics")⟩], strL ("")⟩

/-! ## Theorems -/

/-- If a pattern does not occur in a string, replaceFirst leaves it
unchanged. -/
theorem replaceFirst_no_match (pat repl : LC) :
    ∀ s : LC, containsSub pat s = false → replaceFirst pat repl s = s := by
  intro s
  induction s with
  | nil => intro _; rfl
  | cons c rest ih =>
    intro h
    simp only [containsSub, Bool.or_eq_false_iff] at h
    simp only [replaceFirst, h.1, Bool.false_eq_true, if_false]
    rw [ih h.2]

/-- stripQuery keeps at least one line terminator whenever its input has
one: a terminator can only sit strictly before the removal point. -/
theorem stripQuery_keeps_term :
    ∀ s : LC, (∃ x ∈ s, isLineTerm x = true) →
      ∃ x ∈ stripQuery s, isLineTerm x = true := by
  intro s
  induction s with
  | nil => intro h; exact h
  | cons c rest ih =>
    intro h
    by_cases hc : c = '?' ∧ rest.all (fun x => !isLineTerm x) = true
    · exfalso
      obtain ⟨x, hx, hterm⟩ := h
      rcases List.mem_cons.mp hx with rfl | hx2
      · rw [hc.1] at hterm
        exact absurd hterm (by decide)
      · have hall := List.all_eq_true.mp hc.2 x hx2
        simp [hterm] at hall
    · simp only [stripQuery, if_neg hc]
      obtain ⟨x, hx, hterm⟩ := h
      rcases List.mem_cons.mp hx with rfl | hx2
      · exact ⟨x, List.mem_cons_self x _, hterm⟩
      · by_cases hcterm : isLineTerm c = true
        · exact ⟨c, List.mem_cons_self c _, hcterm⟩
        · obtain ⟨y, hy, hyterm⟩ := ih ⟨x, hx2, hterm⟩
          exact ⟨y, List.mem_cons_of_mem c hy, hyterm⟩

/-- The query-stripping step is idempotent. -/
theorem stripQuery_idem : ∀ s : LC, stripQuery (stripQuery s) = stripQuery s := by
  intro s
  induction s with
  | nil => rfl
  | cons c rest ih =>
    by_cases hc : c = '?' ∧ rest.all (fun x => !isLineTerm x) = true
    · simp only [stripQuery, if_pos hc]
    · simp only [stripQuery, if_neg hc]
      have hc2 : ¬ (c = '?' ∧ (stripQuery rest).all (fun x => !isLineTerm x) = true) := by
        intro hcon
        apply hc
        refine ⟨hcon.1, ?_⟩
        rw [List.all_eq_true]
        intro x hx
        by_contra hterm
        simp only [Bool.not_eq_true, Bool.not_eq_false'] at hterm
        obtain ⟨y, hy, hyterm⟩ := stripQuery_keeps_term rest ⟨x, hx, hterm⟩
        have hall := List.all_eq_true.mp hcon.2 y hy
        simp [hyterm] at hall
      simp only [stripQuery, if_neg hc2]
      rw [ih]

/-- C1 counterexample: canonicalization is not idempotent on every URL
string.  On a URL containing the resize segment twice, one application
removes only the first occurrence, so a second application changes the
result again. -/
theorem C1_counterexample :
    normalizeUrl (normalizeUrl c1url) ≠ normalizeUrl c1url := by decide

/-- C1 (amended): canonicalization is idempotent on every URL string whose
canonical form no longer contains the resize segment.  (As stated the claim
fails: see C1_counterexample, where the segment survives one pass.) -/
theorem C1_normalize_idempotent_amended (s : LC)
    (h : containsSub flyPat (normalizeUrl s) = false) :
    normalizeUrl (normalizeUrl s) = normalizeUrl s := by
  show stripQuery (stripFly (normalizeUrl s)) = normalizeUrl s
  rw [stripFly, replaceFirst_no_match _ _ _ h]
  exact stripQuery_idem (stripFly s)

/-- C1 witness: the amended idempotence applied to the CDN-resized URL of
the specification scenario. -/
theorem C1_witness :
    containsSub flyPat (normalizeUrl (strL ("https://cdn.example.com/fly/@width/img/q1.png?v=2"))) = false ∧
    normalizeUrl (normalizeUrl (strL ("https://cdn.example.com/fly/@width/img/q1.png?v=2"))) =
      normalizeUrl (strL ("https://cdn.example.com/fly/@width/img/q1.png?v=2")) :=
  ⟨by decide, C1_normalize_idempotent_amended _ (by decide)⟩



/-- alookup misses exactly when no pair carries the key. -/
theorem alookup_eq_none_iff {β : Type} (u : LC) :
    ∀ l : List (LC × β), alookup u l = none ↔ ∀ p ∈ l, p.1 ≠ u := by
  intro l
  induction l with
  | nil => simp [alookup]
  | cons q rest ih =>
    obtain ⟨k2, v⟩ := q
    constructor
    · intro h p hp
      rw [alookup] at h
      by_cases hk : k2 = u
      · rw [if_pos hk] at h
        exact absurd h (by simp)
      · rcases List.mem_cons.mp hp with rfl | hp2
        · exact hk
        · rw [if_neg hk] at h
          exact (ih.mp h) p hp2
    · intro h
      rw [alookup]
      have hk : k2 ≠ u := h (k2, v) (List.mem_cons_self _ _)
      rw [if_neg hk]
      exact ih.mpr (fun p hp => h p (List.mem_cons_of_mem _ hp))

/-- pushUsage on a registry whose only entry for the key is the appended
last one updates exactly that entry. -/
theorem pushUsage_append_absent (u : LC) (e : RegEntry) (site : UsageSite) :
    ∀ reg : Registry, (∀ p ∈ reg, p.1 ≠ u) →
      pushUsage (reg ++ [(u, e)]) u site =
        reg ++ [(u, { e with usedIn := e.usedIn ++ [site] })] := by
  intro reg
  induction reg with
  | nil => intro _; simp [pushUsage]
  | cons q rest ih =>
    intro h
    obtain ⟨k2, v⟩ := q
    have hk : k2 ≠ u := h (k2, v) (List.mem_cons_self _ _)
    have h2 := ih (fun p hp => h p (List.mem_cons_of_mem _ hp))
    simp only [List.cons_append, pushUsage, if_neg hk, List.append_eq]
    simp only [List.append_eq] at h2
    rw [h2]

/-- Looking up the key of a freshly appended entry. -/
theorem alookup_append_self {β : Type} (u : LC) (v : β) :
    ∀ l : List (LC × β), alookup u l = none → alookup u (l ++ [(u, v)]) = some v := by
  intro l
  induction l with
  | nil => intro _; simp [alookup]
  | cons q rest ih =>
    intro h
    obtain ⟨k2, w⟩ := q
    simp only [alookup] at h
    by_cases hk : k2 = u
    · simp [hk] at h
    · simp only [List.cons_append, alookup, if_neg hk]
      exact ih (by simpa [if_neg hk] using h)

/-- Every pair of a pushUsage result has the key, url and localPath of a
pair of the input registry. -/
theorem pushUsage_shape (u : LC) (site : UsageSite) :
    ∀ (reg : Registry) p, p ∈ pushUsage reg u site →
      ∃ q ∈ reg, p.1 = q.1 ∧ p.2.localPath = q.2.localPath := by
  intro reg
  induction reg with
  | nil => intro p hp; simp [pushUsage] at hp
  | cons q0 rest ih =>
    intro p hp
    obtain ⟨k2, v⟩ := q0
    by_cases hk : k2 = u
    · simp only [pushUsage, if_pos hk] at hp
      rcases List.mem_cons.mp hp with rfl | hp2
      · exact ⟨(k2, v), List.mem_cons_self _ _, rfl, rfl⟩
      · exact ⟨p, List.mem_cons_of_mem _ hp2, rfl, rfl⟩
    · simp only [pushUsage, if_neg hk] at hp
      rcases List.mem_cons.mp hp with rfl | hp2
      · exact ⟨(k2, v), List.mem_cons_self _ _, rfl, rfl⟩
      · obtain ⟨q1, hq1, hcopy⟩ := ih p hp2
        exact ⟨q1, List.mem_cons_of_mem _ hq1, hcopy⟩

/-- pushUsage keeps the key sequence. -/
theorem pushUsage_keys (u : LC) (site : UsageSite) :
    ∀ reg : Registry, (pushUsage reg u site).map Prod.fst = reg.map Prod.fst := by
  intro reg
  induction reg with
  | nil => rfl
  | cons q rest ih =>
    obtain ⟨k2, v⟩ := q
    by_cases hk : k2 = u
    · simp [pushUsage, hk]
    · simp [pushUsage, hk, ih]

/-- Registering a fresh URL appends exactly one entry holding one usage
site. -/
theorem registerImage_fresh (reg : Registry) (u lp : LC) (site : UsageSite)
    (hne : u ≠ []) (hlp : getLocalImagePath u = some lp)
    (habs : alookup u reg = none) :
    registerImage reg u site = reg ++ [(u, ⟨u, lp, RStatus.pending, [site], none⟩)] := by
  have hkeys := (alookup_eq_none_iff u reg).mp habs
  simp only [registerImage, if_neg hne, hlp, habs, Option.isSome_none, Bool.false_eq_true,
    if_false]
  rw [pushUsage_append_absent u _ site reg hkeys]
  rfl

/-- Registering an already known URL only records the usage site. -/
theorem registerImage_known (reg : Registry) (u lp : LC) (site : UsageSite)
    (hne : u ≠ []) (hlp : getLocalImagePath u = some lp)
    (hknown : (alookup u reg).isSome = true) :
    registerImage reg u site = pushUsage reg u site := by
  simp only [registerImage, if_neg hne, hlp, hknown, if_true]

/-- C4 (amended): for a pair of embeddings whose shared canonical
identifier is nonempty and admits a local path (the URL parses), starting
from a registry without that identifier, two registrations produce exactly
one entry keyed by it, carrying both usage sites in order, and never two
entries.  (As stated over all embeddings the claim fails: an identifier
that does not parse as an absolute URL yields no entry at all, see
C4_counterexample.) -/
theorem C4_dedup_amended (reg : Registry) (u lp : LC) (s1 s2 : UsageSite)
    (hne : u ≠ []) (hlp : getLocalImagePath u = some lp)
    (habs : alookup u reg = none) :
    (registerImage (registerImage reg u s1) u s2).map Prod.fst =
      reg.map Prod.fst ++ [u] ∧
    alookup u (registerImage (registerImage reg u s1) u s2) =
      some ⟨u, lp, RStatus.pending, [s1, s2], none⟩ ∧
    ((registerImage (registerImage reg u s1) u s2).map Prod.fst).count u = 1 := by
  have hkeys := (alookup_eq_none_iff u reg).mp habs
  have h1 : registerImage reg u s1 = reg ++ [(u, ⟨u, lp, RStatus.pending, [s1], none⟩)] :=
    registerImage_fresh reg u lp s1 hne hlp habs
  have hlook1 : alookup u (reg ++ [(u, (⟨u, lp, RStatus.pending, [s1], none⟩ : RegEntry))]) =
      some ⟨u, lp, RStatus.pending, [s1], none⟩ :=
    alookup_append_self u _ reg habs
  have h2 : registerImage (registerImage reg u s1) u s2 =
      reg ++ [(u, ⟨u, lp, RStatus.pending, [s1, s2], none⟩)] := by
    rw [h1]
    rw [registerImage_known _ u lp s2 hne hlp (by rw [hlook1]; rfl)]
    rw [pushUsage_append_absent u _ s2 reg hkeys]
    rfl
  refine ⟨?_, ?_, ?_⟩
  · rw [h2]; simp
  · rw [h2]; exact alookup_append_self u _ reg habs
  · rw [h2]
    have hnotmem : u ∉ reg.map Prod.fst := by
      intro hmem
      obtain ⟨p, hp, hfst⟩ := List.mem_map.mp hmem
      exact hkeys p hp hfst
    simp [List.count_append, List.count_eq_zero.mpr hnotmem]

/-- C4 counterexample: two embeddings with the byte-equal canonical
identifier /img/a.png (a relative URL, so new URL throws and the local
path derivation is absent) produce zero registry entries, not one entry
with usage count two. -/
theorem C4_counterexample :
    extractFromContent ctx0 []
      [Piece.img (strL (" src=\"/img/a.png\"")), Piece.img (strL (" src=\"/img/a.png\""))]
      (strL ("question")) = [] := by decide

/-- C4 witness: the amended dedup statement instantiated with the scenario
URL of the specification. -/
theorem C4_witness :
    exUrl ≠ [] ∧ getLocalImagePath exUrl = some exPath ∧
    alookup exUrl ([] : Registry) = none ∧
    ((registerImage (registerImage [] exUrl siteQ) exUrl siteE).map Prod.fst =
       ([] : Registry).map Prod.fst ++ [exUrl] ∧
     alookup exUrl (registerImage (registerImage [] exUrl siteQ) exUrl siteE) =
       some ⟨exUrl, exPath, RStatus.pending, [siteQ, siteE], none⟩ ∧
     ((registerImage (registerImage [] exUrl siteQ) exUrl siteE).map Prod.fst).count exUrl = 1) :=
  ⟨by decide, by decide, by decide,
   C4_dedup_amended [] exUrl exPath siteQ siteE (by decide) (by decide) (by decide)⟩

/-- C10: a URL without a local path derivation creates no registry entry,
and registration preserves the invariant that every entry key parses and
carries exactly the derived local path (in particular a present, non-null
localPath). -/
theorem C10_registry_validity (reg : Registry) (u : LC) (site : UsageSite) :
    (getLocalImagePath u = none → registerImage reg u site = reg) ∧
    ((∀ p ∈ reg, getLocalImagePath p.1 = some p.2.localPath) →
      ∀ p ∈ registerImage reg u site, getLocalImagePath p.1 = some p.2.localPath) := by
  constructor
  · intro hnone
    by_cases hne : u = []
    · simp [registerImage, hne]
    · simp [registerImage, hne, hnone]
  · intro hinv p hp
    by_cases hne : u = []
    · rw [registerImage, if_pos hne] at hp
      exact hinv p hp
    · rw [registerImage, if_neg hne] at hp
      cases hlp : getLocalImagePath u with
      | none => rw [hlp] at hp; exact hinv p hp
      | some lp =>
        rw [hlp] at hp
        obtain ⟨q, hq, hfst, hpath⟩ := pushUsage_shape u site _ p hp
        rw [hfst, hpath]
        by_cases hknown : (alookup u reg).isSome = true
        · rw [if_pos hknown] at hq
          exact hinv q hq
        · rw [if_neg hknown] at hq
          rcases List.mem_append.mp hq with hq2 | hq2
          · exact hinv q hq2
          · have : q = (u, (⟨u, lp, RStatus.pending, [], none⟩ : RegEntry)) := by
              simpa using hq2
            rw [this]
            exact hlp

/-- C10 witness: the invalid relative URL of C4 creates no entry, and the
invariant instantiated on a singleton registry built from the scenario
URL. -/
theorem C10_witness :
    registerImage [] (strL ("/img/a.png")) siteQ = [] ∧
    getLocalImagePath exUrl =
      some ((⟨exUrl, exPath, RStatus.pending, [siteQ], none⟩ : RegEntry)).localPath :=
  ⟨(C10_registry_validity [] (strL ("/img/a.png")) siteQ).1 (by decide),
   (C10_registry_validity [] exUrl siteQ).2 (by simp)
     (exUrl, ⟨exUrl, exPath, RStatus.pending, [siteQ], none⟩) (by decide)⟩

/-- splitSlash never returns the empty list. -/
theorem splitSlash_ne_nil : ∀ s : LC, splitSlash s ≠ [] := by
  intro s
  induction s with
  | nil => simp [splitSlash]
  | cons c rest ih =>
    rw [splitSlash]
    by_cases hc : c = '/'
    · simp [hc]
    · simp only [if_neg hc]
      cases h : splitSlash rest with
      | nil => simp
      | cons a t => simp

/-- Joining splitSlash segments restores the string. -/
theorem joinSlash_splitSlash : ∀ s : LC, joinSlash (splitSlash s) = s := by
  intro s
  induction s with
  | nil => rfl
  | cons c rest ih =>
    rw [splitSlash]
    by_cases hc : c = '/'
    · subst hc
      simp only [if_pos rfl]
      cases h : splitSlash rest with
      | nil => exact absurd h (splitSlash_ne_nil rest)
      | cons a t =>
        rw [h] at ih
        simp only [joinSlash, List.nil_append]
        rw [ih]
    · simp only [if_neg hc]
      cases h : splitSlash rest with
      | nil => exact absurd h (splitSlash_ne_nil rest)
      | cons a t =>
        rw [h] at ih
        cases t with
        | nil =>
          simp only [joinSlash] at ih ⊢
          rw [ih]
        | cons b t2 =>
          simp only [joinSlash] at ih ⊢
          simp only [List.cons_append]
          rw [← ih]

/-- splitSlash distributes over a slash in the middle. -/
theorem splitSlash_append_slash :
    ∀ x y : LC, splitSlash (x ++ '/' :: y) = splitSlash x ++ splitSlash y := by
  intro x y
  induction x with
  | nil => simp [splitSlash]
  | cons c rest ih =>
    rw [List.cons_append, splitSlash, splitSlash]
    by_cases hc : c = '/'
    · rw [if_pos hc, if_pos hc, ih]
      rfl
    · rw [if_neg hc, if_neg hc, ih]
      cases h : splitSlash rest with
      | nil => exact absurd h (splitSlash_ne_nil rest)
      | cons a t => simp

/-- A string without slashes is a single segment. -/
theorem splitSlash_no_slash : ∀ s : LC, (∀ c ∈ s, c ≠ '/') → splitSlash s = [s] := by
  intro s
  induction s with
  | nil => intro _; rfl
  | cons c rest ih =>
    intro h
    have hc : c ≠ '/' := h c (List.mem_cons_self _ _)
    rw [splitSlash, if_neg hc, ih (fun d hd => h d (List.mem_cons_of_mem _ hd))]

/-- When a string ends with a slash its last segment is empty. -/
theorem splitSlash_last_of_slash :
    ∀ s : LC, s.getLast? = some '/' → (splitSlash s).getLast? = some [] := by
  intro s
  induction s with
  | nil => intro h; simp at h
  | cons c rest ih =>
    intro h
    cases rest with
    | nil =>
      simp only [List.getLast?_singleton, Option.some_inj] at h
      subst h
      rfl
    | cons d rest2 =>
      have h2 : (d :: rest2).getLast? = some '/' := by
        rw [List.getLast?_cons_cons] at h
        exact h
      have ih2 := ih h2
      rw [splitSlash]
      by_cases hc : c = '/'
      · rw [if_pos hc]
        cases hsp : splitSlash (d :: rest2) with
        | nil => exact absurd hsp (splitSlash_ne_nil _)
        | cons a t =>
          rw [hsp] at ih2
          rw [List.getLast?_cons_cons]
          exact ih2
      · rw [if_neg hc]
        cases hsp : splitSlash (d :: rest2) with
        | nil => exact absurd hsp (splitSlash_ne_nil _)
        | cons a t =>
          rw [hsp] at ih2
          cases t with
          | nil =>
            exfalso
            simp only [List.getLast?_singleton, Option.some_inj] at ih2
            subst ih2
            have hj := joinSlash_splitSlash (d :: rest2)
            rw [hsp] at hj
            simp [joinSlash] at hj
          | cons b t2 =>
            rw [List.getLast?_cons_cons] at ih2
            rw [List.getLast?_cons_cons]
            exact ih2

/-- Folding normStep over segments that are all kept reverses them onto
the accumulator. -/
theorem foldl_normStep_keep :
    ∀ (gs : List LC) (acc : List LC),
      (∀ g ∈ gs, g ≠ [] ∧ g ≠ ['.'] ∧ g ≠ ['.', '.']) →
      gs.foldl normStep acc = gs.reverse ++ acc := by
  intro gs
  induction gs with
  | nil => intro acc _; rfl
  | cons g rest ih =>
    intro acc h
    obtain ⟨hne, hdot, hdots⟩ := h g (List.mem_cons_self _ _)
    have hstep : normStep acc g = g :: acc := by
      simp only [normStep]
      rw [if_neg (by tauto), if_neg hdots]
    rw [List.foldl_cons, hstep, ih (g :: acc) (fun g2 hg2 => h g2 (List.mem_cons_of_mem _ hg2))]
    simp

/-- Shape of a successful parse: nonempty hostname free of host
delimiters, and a slash-headed pathname. -/
theorem parseHttpUrl_shape (url : LC) (u : UrlParts) (h : parseHttpUrl url = some u) :
    u.hostname ≠ [] ∧ (∀ c ∈ u.hostname, isHostDelim c = false) ∧
      ∃ rest2, u.pathname = '/' :: rest2 := by
  rw [parseHttpUrl] at h
  cases hs : stripScheme url with
  | none => rw [hs] at h; cases h
  | some rest =>
    rw [hs] at h
    simp only at h
    by_cases hh : rest.takeWhile (fun c => !isHostDelim c) = []
    · rw [if_pos hh] at h; cases h
    · rw [if_neg hh] at h
      have hmem : ∀ c ∈ rest.takeWhile (fun c => !isHostDelim c), isHostDelim c = false := by
        intro c hc
        have := List.mem_takeWhile_imp hc
        simpa using this
      split at h
      · have hu := Option.some.inj h
        subst hu
        exact ⟨hh, hmem, _, rfl⟩
      · have hu := Option.some.inj h
        subst hu
        exact ⟨hh, hmem, [], rfl⟩

/-- The underscored hostname contains no slash. -/
theorem underscoreHost_no_slash (h : LC) (hh : ∀ c ∈ h, isHostDelim c = false) :
    ∀ c ∈ underscoreHost h, c ≠ '/' := by
  intro c hc
  rw [underscoreHost] at hc
  obtain ⟨d, hd, hmap⟩ := List.mem_map.mp hc
  by_cases hdot : d = '.'
  · rw [if_pos hdot] at hmap
    rw [← hmap]
    decide
  · rw [if_neg hdot] at hmap
    subst hmap
    intro hcon
    subst hcon
    have := hh '/' hd
    simp [isHostDelim] at this

/-- The underscored hostname contains no dot. -/
theorem underscoreHost_no_dot (h : LC) : ∀ c ∈ underscoreHost h, c ≠ '.' := by
  intro c hc
  rw [underscoreHost] at hc
  obtain ⟨d, hd, hmap⟩ := List.mem_map.mp hc
  by_cases hdot : d = '.'
  · rw [if_pos hdot] at hmap
    rw [← hmap]
    decide
  · rw [if_neg hdot] at hmap
    subst hmap
    exact hdot

/-- The last element of a cons is the last element of a nonempty tail. -/
theorem getLast_cons_ne {c : Char} {Z : LC} (hZ : Z ≠ []) :
    (c :: Z).getLast? = Z.getLast? := by
  cases Z with
  | nil => exact absurd rfl hZ
  | cons z Z2 => exact List.getLast?_cons_cons

/-- C7 (amended): for every URL accepted by the parser whose parsed remote
path has no empty and no dot segments, the derived local path is byte for
byte the images directory, the underscored host, and the remote path
unchanged.  The derivation is a pure function, so any two computations on
the same canonical URL agree definitionally.  (On a path with an empty
segment the claim as stated fails: path.flatten collapses the double slash,
see C7_counterexample.) -/
theorem C7_local_path_form_amended (url : LC) (u : UrlParts)
    (hp : parseHttpUrl url = some u)
    (hsegs : ∀ seg ∈ splitSlash (u.pathname.drop 1),
      seg ≠ [] ∧ seg ≠ ['.'] ∧ seg ≠ ['.', '.']) :
    getLocalImagePath url =
      some (strL ("images/") ++ underscoreHost u.hostname ++ u.pathname) := by
  obtain ⟨hne, hdelim, rest, hpath⟩ := parseHttpUrl_shape url u hp
  have hrest : u.pathname.drop 1 = rest := by rw [hpath]; rfl
  rw [hrest] at hsegs
  have hrne : rest ≠ [] := by
    intro hcon
    subst hcon
    exact (hsegs [] (by simp [splitSlash])).1 rfl
  have hHne : underscoreHost u.hostname ≠ [] := by
    rw [underscoreHost]
    simpa using hne
  have hHnoslash := underscoreHost_no_slash u.hostname hdelim
  have hHnodot := underscoreHost_no_dot u.hostname
  have hHdot1 : underscoreHost u.hostname ≠ ['.'] := by
    intro hcon
    exact hHnodot '.' (by rw [hcon]; simp) rfl
  have hHdot2 : underscoreHost u.hostname ≠ ['.', '.'] := by
    intro hcon
    exact hHnodot '.' (by rw [hcon]; simp) rfl
  have hjoin : joinSlash [strL ("images"), underscoreHost u.hostname, u.pathname] =
      strL ("images") ++ '/' :: (underscoreHost u.hostname ++ '/' :: ('/' :: rest)) := by
    rw [hpath]
    simp [joinSlash]
  have hsplitJ :
      splitSlash (strL ("images") ++ '/' :: (underscoreHost u.hostname ++ '/' :: ('/' :: rest))) =
        strL ("images") :: underscoreHost u.hostname :: [] :: splitSlash rest := by
    rw [splitSlash_append_slash, splitSlash_append_slash,
      splitSlash_no_slash (underscoreHost u.hostname) hHnoslash,
      show splitSlash ('/' :: rest) = [] :: splitSlash rest by rw [splitSlash, if_pos rfl],
      show splitSlash (strL ("images")) = [strL ("images")] by decide]
    rfl
  have hfold :
      (strL ("images") :: underscoreHost u.hostname :: [] :: splitSlash rest).foldl
          normStep [] =
        (splitSlash rest).reverse ++ [underscoreHost u.hostname, strL ("images")] := by
    rw [List.foldl_cons, List.foldl_cons, List.foldl_cons]
    rw [show normStep [] (strL ("images")) = [strL ("images")] by decide]
    rw [show normStep [strL ("images")] (underscoreHost u.hostname) =
        [underscoreHost u.hostname, strL ("images")] by
      simp only [normStep]
      rw [if_neg (by tauto), if_neg hHdot2]]
    rw [show normStep [underscoreHost u.hostname, strL ("images")] ([] : LC) =
        [underscoreHost u.hostname, strL ("images")] by simp [normStep]]
    exact foldl_normStep_keep (splitSlash rest) _ hsegs
  have hlast :
      (strL ("images") ++ '/' :: (underscoreHost u.hostname ++ '/' :: ('/' :: rest))).getLast? =
        rest.getLast? := by
    rw [List.getLast?_append_cons]
    rw [getLast_cons_ne (by simp)]
    rw [List.getLast?_append_cons]
    rw [List.getLast?_cons_cons]
    rw [getLast_cons_ne hrne]
  have hnoslashend : rest.getLast? ≠ some '/' := by
    intro hcon
    have hlst := splitSlash_last_of_slash rest hcon
    have hmem : ([] : LC) ∈ splitSlash rest := by
      cases hsp : splitSlash rest with
      | nil => exact absurd hsp (splitSlash_ne_nil rest)
      | cons a t =>
        rw [hsp] at hlst
        have hmemopt : ([] : LC) ∈ (a :: t).getLast? := by
          rw [Option.mem_def]
          exact hlst
        obtain ⟨hne2, heq⟩ := List.mem_getLast?_eq_getLast hmemopt
        rw [heq]
        exact List.getLast_mem hne2
    exact (hsegs [] hmem).1 rfl
  rw [getLocalImagePath, hp, Option.map_some']
  congr 1
  simp only [nodeJoinRel]
  rw [hjoin, hsplitJ, hfold]
  rw [show ((splitSlash rest).reverse ++
      [underscoreHost u.hostname, strL ("images")]).reverse =
      strL ("images") :: underscoreHost u.hostname :: splitSlash rest by
    rw [List.reverse_append, List.reverse_reverse]
    rfl]
  rw [if_neg (by simp)]
  rw [hlast, if_neg hnoslashend]
  cases hsp : splitSlash rest with
  | nil => exact absurd hsp (splitSlash_ne_nil rest)
  | cons a t =>
    have hjr : joinSlash (a :: t) = rest := by
      have := joinSlash_splitSlash rest
      rw [hsp] at this
      exact this
    simp only [joinSlash, hjr, hpath]
    rw [show (strL ("images/") : LC) = strL ("images") ++ ['/'] by decide]
    simp

/-- C7 counterexample: on a URL whose remote path has an empty segment the
stored local path is not of the form images, underscored host, original
remote path: the WHATWG parser keeps the double slash in the pathname but
path.flatten collapses it. -/
theorem C7_counterexample :
    parseHttpUrl (strL ("https://h//a.png")) = some ⟨strL ("h"), strL ("//a.png")⟩ ∧
    getLocalImagePath (strL ("https://h//a.png")) = some (strL ("images/h/a.png")) ∧
    strL ("images/h/a.png") ≠
      strL ("images/") ++ underscoreHost (strL ("h")) ++ strL ("//a.png") :=
  ⟨by decide, by decide, by decide⟩

/-- C7 witness: the amended form statement instantiated on the scenario
URL. -/
theorem C7_witness :
    parseHttpUrl exUrl = some ⟨strL ("cdn.example.com"), strL ("/img/q1.png")⟩ ∧
    getLocalImagePath exUrl =
      some (strL ("images/") ++ underscoreHost (strL ("cdn.example.com")) ++
        strL ("/img/q1.png")) :=
  ⟨by decide,
   C7_local_path_form_amended exUrl ⟨strL ("cdn.example.com"), strL ("/img/q1.png")⟩
     (by decide) (by decide)⟩

/-- C2 counterexample: a usage site whose localized src decodes to the
registry path but whose file does not exist still increments the matched
counter; the existence failure only increments the missing counter.  This
refutes the only-if direction of the claim. -/
theorem C2_counterexample :
    (compareSite [(exUrl, exPath)] (fun _ => false) exUrl
        (strL ("../../") ++ exPath)).matchedInc = true ∧
    (compareSite [(exUrl, exPath)] (fun _ => false) exUrl
        (strL ("../../") ++ exPath)).missingInc = true := by decide

/-- C2 (amended): a usage site is counted as matched exactly when the
localized src starts with the local images prefix and, with the leading
relative marker stripped, equals the path the registry maps the raw
canonical URL to; the on-disk existence check is tallied separately as a
missing-file count and never removes the site from the matched total. -/
theorem C2_matched_criterion_amended (m : List (LC × LC)) (fe : LC → Bool)
    (rawUrl localUrl : LC) :
    ((compareSite m fe rawUrl localUrl).matchedInc = true ↔
      (localImgPre.isPrefixOf localUrl = true ∧
       alookup rawUrl m = some (replaceFirst (strL ("../../")) [] localUrl))) ∧
    (compareSite m fe rawUrl localUrl).missingInc =
      ((compareSite m fe rawUrl localUrl).matchedInc &&
        !fe (replaceFirst (strL ("../../")) [] localUrl)) := by
  by_cases hpre : localImgPre.isPrefixOf localUrl = true
  · rw [compareSite, if_pos hpre]
    cases hlk : alookup rawUrl m with
    | none => simp [hlk]
    | some expected =>
      by_cases heq : expected = replaceFirst (strL ("../../")) [] localUrl
      · subst heq
        simp [hpre, hlk]
      · simp only [if_neg heq]
        constructor
        · constructor
          · intro hcon; cases hcon
          · rintro ⟨_, hsome⟩
            exact ((heq (Option.some.inj hsome)).elim)
        · rfl
  · rw [compareSite, if_neg hpre]
    constructor
    · constructor
      · intro hcon; cases hcon
      · rintro ⟨hcon, _⟩
        exact (hpre hcon).elim
    · rfl

/-- Property access on a non-null value never throws. -/
theorem getField_ne_null (v : Json) (k : LC) (h : v ≠ Json.null) :
    getField v k = some (jsGet v k) := by
  cases v with
  | null => exact absurd rfl h
  | bool b => rfl
  | num n => rfl
  | str s2 => rfl
  | arr xs => rfl
  | obj fs => rfl

/-- Bind of a some in the Option monad. -/
theorem optBind_some {α β : Type} (a : α) (f : α → Option β) :
    (some a >>= f) = f a := rfl

/-- The load over null-free entries never aborts and accumulates exactly
the success pairs. -/
theorem loadFold_ok :
    ∀ (entries : List Json) (acc : List (Option Json × Option Json)),
      (∀ e ∈ entries, e ≠ Json.null) →
      entries.foldlM loadStep acc = some (acc ++ successPairs entries) := by
  intro entries
  induction entries with
  | nil => intro acc _; simp [successPairs]
  | cons img rest ih =>
    intro acc h
    have hnn := h img (List.mem_cons_self _ _)
    have hrest : ∀ e ∈ rest, e ≠ Json.null :=
      fun e he => h e (List.mem_cons_of_mem _ he)
    rw [List.foldlM_cons]
    cases hst : jsGet img (strL ("status")) with
    | none =>
      have hstep : loadStep acc img = some acc := by
        simp only [loadStep]
        rw [getField_ne_null _ _ hnn, hst]
      rw [hstep, optBind_some, ih acc hrest]
      simp [successPairs, List.filterMap_cons, hst]
    | some j =>
      cases j with
      | str st =>
        by_cases hsucc : st = strL ("success")
        · have hstep : loadStep acc img =
              some (acc ++ [(jsGet img (strL ("url")), jsGet img (strL ("localPath")))]) := by
            simp only [loadStep]
            rw [getField_ne_null _ _ hnn, hst]
            simp [hsucc]
          rw [hstep, optBind_some, ih _ hrest]
          simp [successPairs, List.filterMap_cons, hst, hsucc]
        · have hstep : loadStep acc img = some acc := by
            simp only [loadStep]
            rw [getField_ne_null _ _ hnn, hst]
            simp [hsucc]
          rw [hstep, optBind_some, ih _ hrest]
          simp [successPairs, List.filterMap_cons, hst, hsucc]
      | null =>
        have hstep : loadStep acc img = some acc := by
          simp only [loadStep]
          rw [getField_ne_null _ _ hnn, hst]
        rw [hstep, optBind_some, ih acc hrest]
        simp [successPairs, List.filterMap_cons, hst]
      | bool b =>
        have hstep : loadStep acc img = some acc := by
          simp only [loadStep]
          rw [getField_ne_null _ _ hnn, hst]
        rw [hstep, optBind_some, ih acc hrest]
        simp [successPairs, List.filterMap_cons, hst]
      | num n =>
        have hstep : loadStep acc img = some acc := by
          simp only [loadStep]
          rw [getField_ne_null _ _ hnn, hst]
        rw [hstep, optBind_some, ih acc hrest]
        simp [successPairs, List.filterMap_cons, hst]
      | arr xs =>
        have hstep : loadStep acc img = some acc := by
          simp only [loadStep]
          rw [getField_ne_null _ _ hnn, hst]
        rw [hstep, optBind_some, ih acc hrest]
        simp [successPairs, List.filterMap_cons, hst]
      | obj fs =>
        have hstep : loadStep acc img = some acc := by
          simp only [loadStep]
          rw [getField_ne_null _ _ hnn, hst]
        rw [hstep, optBind_some, ih acc hrest]
        simp [successPairs, List.filterMap_cons, hst]

/-- C3 counterexample: a registry document with one null entry and one
well-formed success entry makes the whole load abort (process exit), even
though a success entry remains; the claim demands the load succeed with
the remaining entries. -/
theorem C3_counterexample :
    loadImageMapping badDoc = none ∧
    successPairs [Json.null, goodEntry] =
      [(some (Json.str (strL ("https://h/a.png"))),
        some (Json.str (strL ("images/h/a.png"))))] := ⟨rfl, rfl⟩

/-- C3 (amended): for every registry document whose images field is an
array of non-null entries, the load succeeds and keeps exactly the entries
whose status is the string success, treating all other malformed entries
as absent.  A null entry still aborts the whole load (see
C3_counterexample), because reading its status throws before the
per-entry filter can skip it. -/
theorem C3_load_tolerates_amended (doc : Json) (entries : List Json)
    (himg : getField doc (strL ("images")) = some (some (Json.arr entries)))
    (hnn : ∀ e ∈ entries, e ≠ Json.null) :
    loadImageMapping doc = some (successPairs entries) := by
  rw [loadImageMapping, himg]
  have hfold := loadFold_ok entries [] hnn
  simpa using hfold

/-- C3 witness: a document holding one success entry and one malformed
string entry loads to exactly the success pair. -/
theorem C3_witness :
    getField c3doc (strL ("images")) =
      some (some (Json.arr [goodEntry, Json.str (strL ("oops"))])) ∧
    loadImageMapping c3doc =
      some (successPairs [goodEntry, Json.str (strL ("oops"))]) :=
  ⟨rfl,
   C3_load_tolerates_amended c3doc [goodEntry, Json.str (strL ("oops"))] rfl (by
     intro e he
     rcases List.mem_cons.mp he with rfl | he2
     · exact fun hcon => Json.noConfusion hcon
     · rcases List.mem_singleton.mp he2 with rfl
       exact fun hcon => Json.noConfusion hcon)⟩

/-- C6: fetcher failure isolation.  The download loop never propagates an
exception: it always terminates with ok, every entry of the batch is
settled by its own retrieval outcome alone, and an entry whose retrieval
fails (network error, non-2xx, streaming failure) is marked failed with a
recorded error while the rest of the batch is still processed. -/
theorem C6_failure_isolation (net : LC → FetchEvent) (batch : List RegEntry) :
    runBatch net batch = Except.ok (batch.map (processEntry net)) ∧
    (∀ e ∈ batch, downloadImage (net e.url) = false →
      (processEntry net e).status = RStatus.failed ∧
      (processEntry net e).error = some (strL ("Download failed"))) := by
  constructor
  · induction batch with
    | nil => rfl
    | cons e rest ih => simp only [runBatch, ih, List.map_cons]
  · intro e _ hfail
    constructor
    · simp [processEntry, hfail]
    · simp [processEntry, hfail]

/-- C6 witness: a batch of one entry under an always-failing network. -/
theorem C6_witness :
    runBatch netFail [pendingEntry] =
      Except.ok ([pendingEntry].map (processEntry netFail)) ∧
    ((processEntry netFail pendingEntry).status = RStatus.failed ∧
     (processEntry netFail pendingEntry).error = some (strL ("Download failed"))) :=
  ⟨(C6_failure_isolation netFail [pendingEntry]).1,
   (C6_failure_isolation netFail [pendingEntry]).2 pendingEntry
     (List.mem_singleton.mpr rfl) (by decide)⟩

/-- C8: pre-flight skip.  An entry whose local path exists at the start of
the run appears in the result marked success and its URL is never fetched;
when every entry has its file on disk the run issues zero network
requests and only flips every status to success. -/
theorem C8_preflight_skip (ex : LC → Bool) (net : LC → FetchEvent)
    (reg : List RegEntry) (hnodup : (reg.map (fun e => e.url)).Nodup) :
    (∀ e ∈ reg, ex e.localPath = true →
      { e with status := RStatus.success } ∈ (fetcherRun ex net reg).1 ∧
      e.url ∉ (fetcherRun ex net reg).2) ∧
    ((∀ e ∈ reg, ex e.localPath = true) →
      (fetcherRun ex net reg).2 = [] ∧
      (fetcherRun ex net reg).1 =
        reg.map (fun e => { e with status := RStatus.success })) := by
  constructor
  · intro e he hex
    constructor
    · have h1 : ({ e with status := RStatus.success } : RegEntry) ∈ preflight ex reg := by
        rw [preflight]
        exact List.mem_map.mpr ⟨e, he, by rw [if_pos hex]⟩
      exact List.mem_map.mpr ⟨{ e with status := RStatus.success }, h1, by rw [if_neg (by simp)]⟩
    · intro hmem
      obtain ⟨g, hg, hgurl⟩ := List.mem_map.mp hmem
      have hgf := List.mem_filter.mp hg
      have hgpend : g.status = RStatus.pending := of_decide_eq_true hgf.2
      obtain ⟨e0, he0, he0g⟩ := List.mem_map.mp hgf.1
      by_cases hex0 : ex e0.localPath = true
      · rw [if_pos hex0] at he0g
        rw [← he0g] at hgpend
        cases hgpend
      · rw [if_neg hex0] at he0g
        subst he0g
        have he0e : e0 = e :=
          List.inj_on_of_nodup_map hnodup he0 he (by rw [hgurl])
        subst he0e
        exact hex0 hex
  · intro hall
    have hpre : preflight ex reg =
        reg.map (fun e => { e with status := RStatus.success }) := by
      rw [preflight]
      exact List.map_congr_left (fun e he => by rw [if_pos (hall e he)])
    have hsucc : ∀ g ∈ preflight ex reg, g.status = RStatus.success := by
      intro g hg
      rw [hpre] at hg
      obtain ⟨e0, _, he0g⟩ := List.mem_map.mp hg
      rw [← he0g]
    constructor
    · have : (preflight ex reg).filter (fun e => decide (e.status = RStatus.pending)) = [] := by
        rw [List.filter_eq_nil_iff]
        intro g hg
        simp [hsucc g hg]
      rw [fetcherRun]
      rw [this]
      rfl
    · rw [fetcherRun]
      have : (preflight ex reg).map
          (fun e => if e.status = RStatus.pending then processEntry net e else e) =
          preflight ex reg :=
        (List.map_congr_left (fun g hg => by
          rw [if_neg (by rw [hsucc g hg]; simp)]
          rfl)).trans (List.map_id _)
      rw [this, hpre]

/-- C8 witness: one pending entry with its file on disk is marked success
with zero downloads. -/
theorem C8_witness :
    ({ pendingEntry with status := RStatus.success } ∈
       (fetcherRun (fun _ => true) netFail [pendingEntry]).1 ∧
     pendingEntry.url ∉ (fetcherRun (fun _ => true) netFail [pendingEntry]).2) ∧
    ((fetcherRun (fun _ => true) netFail [pendingEntry]).2 = [] ∧
     (fetcherRun (fun _ => true) netFail [pendingEntry]).1 =
       [pendingEntry].map (fun e => { e with status := RStatus.success })) :=
  ⟨(C8_preflight_skip (fun _ => true) netFail [pendingEntry] (by decide)).1 pendingEntry
     (List.mem_singleton.mpr rfl) rfl,
   (C8_preflight_skip (fun _ => true) netFail [pendingEntry] (by decide)).2
     (fun e he => rfl)⟩

/-- C5: a tag whose canonical identifier has no successful registry
mapping is left byte for byte unchanged, with its original remote src
value and its delimiters intact; the rewrite is a total function, so it
cannot fail on such input. -/
theorem C5_unmapped_left_unchanged (m : List (LC × LC)) (attrs : LC)
    (hmark : ∀ u, findQuoted dataOrsrcPat attrs = some u → alookup u m = none)
    (hsrc : ∀ sv, findQuoted dataOrsrcPat attrs = none →
      findQuoted srcPat attrs = some sv → alookup (normalizeUrl sv) m = none) :
    rewriteTagAttrs m attrs = attrs ∧
    rewriteImgTag m attrs = strL ("<img") ++ attrs ++ strL (">") := by
  have h1 : rewriteTagAttrs m attrs = attrs := by
    rw [rewriteTagAttrs]
    cases hd : findQuoted dataOrsrcPat attrs with
    | some u => simp only [hmark u hd]
    | none =>
      cases hs : findQuoted srcPat attrs with
      | some sv => simp only [hsrc sv hd hs]
      | none => rfl
  exact ⟨h1, by rw [rewriteImgTag, h1]⟩

/-- C5 witness: under an empty mapping (nothing downloaded) a tag with
both attributes is left unchanged. -/
theorem C5_witness :
    rewriteTagAttrs [] c5attrs = c5attrs ∧
    rewriteImgTag [] c5attrs = strL ("<img") ++ c5attrs ++ strL (">") :=
  C5_unmapped_left_unchanged [] c5attrs (fun _ _ => rfl) (fun _ _ _ => rfl)

/-- The src pattern is a quoted pattern. -/
theorem srcPat_eq : srcPat = patNm (strL ("src")) := rfl

/-- The marker pattern is a quoted pattern. -/
theorem dataOrsrcPat_eq : dataOrsrcPat = patNm (strL ("data-orsrc")) := rfl

/-- The src literal satisfies the name conditions. -/
theorem nmOK_src : nmOK (strL ("src")) := by
  constructor
  · decide
  · decide

/-- The marker literal satisfies the name conditions. -/
theorem nmOK_marker : nmOK (strL ("data-orsrc")) := by
  constructor
  · decide
  · decide

/-- An element equal to the optional last element is a member. -/
theorem mem_of_getLast?_eq {α : Type} {l : List α} {a : α}
    (h : l.getLast? = some a) : a ∈ l := by
  have hmem : a ∈ l.getLast? := by rw [Option.mem_def]; exact h
  obtain ⟨hne, heq⟩ := List.mem_getLast?_eq_getLast hmem
  rw [heq]
  exact List.getLast_mem hne

/-- takeWhile collects exactly a satisfying block closed by a failing
element. -/
theorem takeWhile_append_stop (p : Char → Bool) :
    ∀ (xs : LC) (y : Char) (rest : LC), (∀ c ∈ xs, p c = true) → p y = false →
      (xs ++ y :: rest).takeWhile p = xs := by
  intro xs
  induction xs with
  | nil =>
    intro y rest _ hy
    simp [List.takeWhile_cons, hy]
  | cons x xs2 ih =>
    intro y rest hall hy
    have hx : p x = true := hall x (List.mem_cons_self _ _)
    simp only [List.cons_append, List.takeWhile_cons, hx, if_true]
    rw [ih y rest (fun c hc => hall c (List.mem_cons_of_mem _ hc)) hy]

/-- The quoted pattern never matches while the scanner is inside an
attribute value: the first quote of the pattern would have to align with
the closing quote, forcing the value to end in an equals sign. -/
theorem pat_not_prefix_val (nm vs t : LC) (hnm : nmOK nm)
    (hq : ∀ c ∈ vs, c ≠ '\"') (hlast : vs.getLast? ≠ some '=') :
    (patNm nm).isPrefixOf (vs ++ '\"' :: t) = false := by
  by_contra hcon
  rw [Bool.not_eq_false] at hcon
  obtain ⟨u, hu⟩ := List.isPrefixOf_iff_prefix.mp hcon
  have h1 : (((patNm nm) ++ u).takeWhile (fun c => !(c == '\"'))) = nm ++ ['='] := by
    rw [show (patNm nm) ++ u = (nm ++ ['=']) ++ '\"' :: u by simp [patNm]]
    apply takeWhile_append_stop
    · intro c hc
      rcases List.mem_append.mp hc with hc2 | hc2
      · simp [(hnm.2 c hc2).1]
      · rcases List.mem_singleton.mp hc2 with rfl
        decide
    · decide
  have h2 : ((vs ++ '\"' :: t).takeWhile (fun c => !(c == '\"'))) = vs := by
    apply takeWhile_append_stop
    · intro c hc
      simp [hq c hc]
    · decide
  rw [hu, h2] at h1
  exact hlast (by rw [h1]; exact List.getLast?_concat _)

/-- The quoted pattern matches at a name position exactly when the
remaining name text is the pattern name: otherwise the equals signs of the
two sides cannot align. -/
theorem pat_not_prefix_name (nm ns w : LC) (hnm : nmOK nm)
    (hns : ∀ c ∈ ns, c ≠ '=') (hne : ns ≠ nm) :
    (patNm nm).isPrefixOf (ns ++ '=' :: '\"' :: w) = false := by
  by_contra hcon
  rw [Bool.not_eq_false] at hcon
  obtain ⟨u, hu⟩ := List.isPrefixOf_iff_prefix.mp hcon
  have h1 : (((patNm nm) ++ u).takeWhile (fun c => !(c == '='))) = nm := by
    rw [show (patNm nm) ++ u = nm ++ '=' :: '\"' :: u by simp [patNm]]
    apply takeWhile_append_stop
    · intro c hc
      simp [(hnm.2 c hc).2.1]
    · decide
  have h2 : ((ns ++ '=' :: '\"' :: w).takeWhile (fun c => !(c == '='))) = ns := by
    apply takeWhile_append_stop
    · intro c hc
      simp [hns c hc]
    · decide
  rw [hu, h2] at h1
  exact hne h1

/-- One skipping step of the quoted scanner. -/
theorem splitQuotedAt_step (pat : LC) (c : Char) (rest : LC)
    (h : pat.isPrefixOf (c :: rest) = false) :
    splitQuotedAt pat (c :: rest) =
      (splitQuotedAt pat rest).map (fun x => (c :: x.1, x.2.1, x.2.2)) := by
  rw [splitQuotedAt]
  rw [if_neg (fun hcon => absurd hcon.1 (by simp [h]))]
  cases hsp : splitQuotedAt pat rest with
  | none => rfl
  | some x =>
    obtain ⟨b, cp, a⟩ := x
    rfl

/-- The quoted pattern starts with a name character, so it can never
match at a whitespace, quote or equals position. -/
theorem pat_head_not (nm : LC) (hnm : nmOK nm) (c : Char)
    (hc : isJsWs c = true ∨ c = '\"' ∨ c = '=') :
    ∀ X : LC, (patNm nm).isPrefixOf (c :: X) = false := by
  intro X
  cases hn : nm with
  | nil => exact absurd hn hnm.1
  | cons n0 nm2 =>
    by_contra hcon
    rw [Bool.not_eq_false] at hcon
    obtain ⟨u, hu⟩ := List.isPrefixOf_iff_prefix.mp hcon
    rw [patNm] at hu
    simp only [List.cons_append, List.append_assoc] at hu
    have hhead : n0 = c := ((List.cons.injEq _ _ _ _).mp hu).1
    have hn0 := hnm.2 n0 (by rw [hn]; exact List.mem_cons_self _ _)
    rcases hc with hws | hq | he
    · rw [hhead] at hn0
      rw [hws] at hn0
      exact absurd hn0.2.2 (by simp)
    · exact hn0.1 (hhead.trans hq)
    · exact hn0.2.1 (hhead.trans he)

/-- The scanner matches at the start of the pattern name followed by a
nonempty quote-free value: the first match of the quoted regexp. -/
theorem splitQuotedAt_hit (nm v t : LC) (hnm : nmOK nm) (hv : v ≠ [])
    (hq : ∀ c ∈ v, c ≠ '\"') :
    splitQuotedAt (patNm nm) (nm ++ '=' :: '\"' :: (v ++ '\"' :: t)) =
      some ([], v, t) := by
  cases nm with
  | nil => exact absurd rfl hnm.1
  | cons n0 nm2 =>
    have hasm : (n0 :: nm2) ++ '=' :: '\"' :: (v ++ '\"' :: t) =
        patNm (n0 :: nm2) ++ (v ++ '\"' :: t) := by simp [patNm]
    have htl : (n0 :: (nm2 ++ '=' :: '\"' :: (v ++ '\"' :: t))).drop
        (patNm (n0 :: nm2)).length = v ++ '\"' :: t := by
      rw [← List.cons_append, hasm]
      exact List.drop_left _ _
    have hcap : (v ++ '\"' :: t).takeWhile (fun x => !(x == '\"')) = v :=
      takeWhile_append_stop _ v '\"' t (fun c hc => by simp [hq c hc]) (by decide)
    have hpre : (patNm (n0 :: nm2)).isPrefixOf
        (n0 :: (nm2 ++ '=' :: '\"' :: (v ++ '\"' :: t))) = true := by
      rw [List.isPrefixOf_iff_prefix, ← List.cons_append, hasm]
      exact ⟨v ++ '\"' :: t, rfl⟩
    have hdropv : (v ++ '\"' :: t).drop v.length = '\"' :: t :=
      List.drop_left v ('\"' :: t)
    have hdropv1 : (v ++ '\"' :: t).drop (v.length + 1) = t := by
      rw [show v ++ '\"' :: t = (v ++ ['\"']) ++ t by simp]
      exact List.drop_left' (by simp)
    rw [List.cons_append]
    simp only [splitQuotedAt]
    rw [htl, hcap]
    rw [if_pos ⟨hpre, hv, by rw [hdropv]; rfl⟩]
    rw [hdropv1]

/-- The scanner passes an attribute value and its closing quote without
matching. -/
theorem scan_val (nm : LC) (hnm : nmOK nm) :
    ∀ (vs t : LC), (∀ c ∈ vs, c ≠ '\"') → vs.getLast? ≠ some '=' →
      splitQuotedAt (patNm nm) (vs ++ '\"' :: t) =
        (splitQuotedAt (patNm nm) t).map
          (fun x => (vs ++ '\"' :: x.1, x.2.1, x.2.2)) := by
  intro vs
  induction vs with
  | nil =>
    intro t _ _
    rw [List.nil_append]
    rw [splitQuotedAt_step _ _ _ (pat_head_not nm hnm '\"' (Or.inr (Or.inl rfl)) t)]
    cases hsp : splitQuotedAt (patNm nm) t with
    | none => rfl
    | some x =>
      obtain ⟨b, cp, a⟩ := x
      rfl
  | cons c vs2 ih =>
    intro t hq hlast
    have hstep : (patNm nm).isPrefixOf (c :: (vs2 ++ '\"' :: t)) = false := by
      rw [← List.cons_append]
      exact pat_not_prefix_val nm (c :: vs2) t hnm hq hlast
    rw [List.cons_append, splitQuotedAt_step _ _ _ hstep]
    have hq2 : ∀ d ∈ vs2, d ≠ '\"' := fun d hd => hq d (List.mem_cons_of_mem _ hd)
    have hlast2 : vs2.getLast? ≠ some '=' := by
      cases hvs2 : vs2 with
      | nil => simp
      | cons e es =>
        rw [← hvs2]
        intro hcon
        apply hlast
        rw [getLast_cons_ne (by rw [hvs2]; exact List.cons_ne_nil _ _)]
        exact hcon
    rw [ih t hq2 hlast2]
    cases hsp : splitQuotedAt (patNm nm) t with
    | none => rfl
    | some x =>
      obtain ⟨b, cp, a⟩ := x
      rfl

/-- The scanner passes a whole name, equals and opening quote without
matching when the pattern name is not a suffix of the attribute name. -/
theorem scan_name_skip (nm : LC) (hnm : nmOK nm) :
    ∀ (ns w : LC), (∀ c ∈ ns, c ≠ '\"' ∧ c ≠ '=' ∧ isJsWs c = false) →
      (¬ nm <:+ ns) →
      splitQuotedAt (patNm nm) (ns ++ '=' :: '\"' :: w) =
        (splitQuotedAt (patNm nm) w).map
          (fun x => (ns ++ '=' :: '\"' :: x.1, x.2.1, x.2.2)) := by
  intro ns
  induction ns with
  | nil =>
    intro w _ _
    rw [List.nil_append]
    rw [splitQuotedAt_step _ _ _ (pat_head_not nm hnm '=' (Or.inr (Or.inr rfl)) _)]
    rw [splitQuotedAt_step _ _ _ (pat_head_not nm hnm '\"' (Or.inr (Or.inl rfl)) _)]
    cases hsp : splitQuotedAt (patNm nm) w with
    | none => rfl
    | some x =>
      obtain ⟨b, cp, a⟩ := x
      rfl
  | cons c ns2 ih =>
    intro w hchars hsfx
    have hne : c :: ns2 ≠ nm := by
      intro hcon
      exact hsfx (hcon ▸ List.suffix_refl (c :: ns2))
    have hstep : (patNm nm).isPrefixOf (c :: (ns2 ++ '=' :: '\"' :: w)) = false := by
      rw [← List.cons_append]
      exact pat_not_prefix_name nm (c :: ns2) w hnm
        (fun d hd => (hchars d hd).2.1) hne
    rw [List.cons_append, splitQuotedAt_step _ _ _ hstep]
    have hsfx2 : ¬ nm <:+ ns2 := by
      intro hcon
      exact hsfx (hcon.trans (List.suffix_cons c ns2))
    rw [ih w (fun d hd => hchars d (List.mem_cons_of_mem _ hd)) hsfx2]
    cases hsp : splitQuotedAt (patNm nm) w with
    | none => rfl
    | some x =>
      obtain ⟨b, cp, a⟩ := x
      rfl

/-- The scanner inside a name whose suffix is the pattern name matches
exactly at the point where the remaining name is the pattern name. -/
theorem scan_name_hit (nm : LC) (hnm : nmOK nm) :
    ∀ (ns v t : LC), (∀ c ∈ ns, c ≠ '\"' ∧ c ≠ '=' ∧ isJsWs c = false) →
      nm <:+ ns → v ≠ [] → (∀ c ∈ v, c ≠ '\"') →
      splitQuotedAt (patNm nm) (ns ++ '=' :: '\"' :: (v ++ '\"' :: t)) =
        some (ns.take (ns.length - nm.length), v, t) := by
  intro ns
  induction ns with
  | nil =>
    intro v t _ hsfx _ _
    obtain ⟨u, hu⟩ := hsfx
    exact absurd (List.append_eq_nil.mp hu).2 hnm.1
  | cons c ns2 ih =>
    intro v t hchars hsfx hv hq
    by_cases hlen : (c :: ns2).length = nm.length
    · have hns : c :: ns2 = nm := by
        obtain ⟨u, hu⟩ := hsfx
        have hlCons : ns2.length + 1 = nm.length := by simpa using hlen
        have hlu := congrArg List.length hu
        simp at hlu
        have hul : u.length = 0 := by omega
        rw [List.length_eq_zero.mp hul] at hu
        simpa using hu.symm
      rw [hns]
      rw [show nm.length - nm.length = 0 from by omega, List.take_zero]
      exact splitQuotedAt_hit nm v t hnm hv hq
    · have hlt : nm.length < (c :: ns2).length :=
        lt_of_le_of_ne (hsfx.length_le) (fun hcon => hlen hcon.symm)
      have hsfx2 : nm <:+ ns2 := by
        obtain ⟨u, hu⟩ := hsfx
        cases hu2 : u with
        | nil =>
          rw [hu2] at hu
          rw [List.nil_append] at hu
          exact absurd (congrArg List.length hu.symm) hlen
        | cons d u2 =>
          rw [hu2] at hu
          rw [List.cons_append] at hu
          exact ⟨u2, ((List.cons.injEq _ _ _ _).mp hu).2⟩
      have hne : c :: ns2 ≠ nm := fun hcon => hlen (congrArg List.length hcon)
      have hstep : (patNm nm).isPrefixOf
          (c :: (ns2 ++ '=' :: '\"' :: (v ++ '\"' :: t))) = false := by
        rw [← List.cons_append]
        exact pat_not_prefix_name nm (c :: ns2) _ hnm
          (fun d hd => (hchars d hd).2.1) hne
      rw [List.cons_append, splitQuotedAt_step _ _ _ hstep]
      rw [ih v t (fun d hd => hchars d (List.mem_cons_of_mem _ hd)) hsfx2 hv hq]
      have hlen2 : nm.length ≤ ns2.length := hsfx2.length_le
      rw [show (c :: ns2).length - nm.length = (ns2.length - nm.length) + 1 from by
        simp only [List.length_cons]; omega]
      rw [List.take_succ_cons]
      rfl

/-- Rendered attribute followed by trailing text, in scanner shape. -/
theorem renderAttr_expand (n v t : LC) :
    renderAttr (n, v) ++ t = ' ' :: (n ++ '=' :: '\"' :: (v ++ '\"' :: t)) := by
  simp [renderAttr]

/-- renderAttrs of a cons. -/
theorem renderAttrs_cons (x : LC × LC) (l : AttrL) :
    renderAttrs (x :: l) = renderAttr x ++ renderAttrs l := by
  simp [renderAttrs]

/-- renderAttrs of an append. -/
theorem renderAttrs_append (a b : AttrL) :
    renderAttrs (a ++ b) = renderAttrs a ++ renderAttrs b := by
  simp [renderAttrs]

/-- A rendered attribute ends with the closing quote. -/
theorem renderAttr_getLast (n v : LC) :
    (renderAttr (n, v)).getLast? = some '\"' := by
  rw [show renderAttr (n, v) = (' ' :: n ++ '=' :: '\"' :: v) ++ ['\"'] by
    simp [renderAttr]]
  exact List.getLast?_concat _

/-- The scanner passes a whole rendered attribute whose name does not end
in the pattern name. -/
theorem scan_chunk_skip (nm : LC) (hnm : nmOK nm) (n v t : LC)
    (hn : ∀ c ∈ n, c ≠ '\"' ∧ c ≠ '=' ∧ isJsWs c = false)
    (hnsfx : ¬ nm <:+ n)
    (hq : ∀ c ∈ v, c ≠ '\"') (hlast : v.getLast? ≠ some '=') :
    splitQuotedAt (patNm nm) (renderAttr (n, v) ++ t) =
      (splitQuotedAt (patNm nm) t).map
        (fun x => (renderAttr (n, v) ++ x.1, x.2.1, x.2.2)) := by
  rw [renderAttr_expand]
  rw [splitQuotedAt_step _ _ _ (pat_head_not nm hnm ' ' (Or.inl (by decide)) _)]
  rw [scan_name_skip nm hnm n _ hn hnsfx]
  rw [scan_val nm hnm v t hq hlast]
  cases hsp : splitQuotedAt (patNm nm) t with
  | none => rfl
  | some x =>
    obtain ⟨b, cp, a⟩ := x
    simp [renderAttr]

/-- The scanner matches inside a rendered attribute whose name ends in the
pattern name, capturing its value. -/
theorem scan_chunk_hit (nm : LC) (hnm : nmOK nm) (n v t : LC)
    (hn : ∀ c ∈ n, c ≠ '\"' ∧ c ≠ '=' ∧ isJsWs c = false)
    (hsfx : nm <:+ n) (hv : v ≠ []) (hq : ∀ c ∈ v, c ≠ '\"') :
    splitQuotedAt (patNm nm) (renderAttr (n, v) ++ t) =
      some (' ' :: n.take (n.length - nm.length), v, t) := by
  rw [renderAttr_expand]
  rw [splitQuotedAt_step _ _ _ (pat_head_not nm hnm ' ' (Or.inl (by decide)) _)]
  rw [scan_name_hit nm hnm n v t hn hsfx hv hq]
  rfl

/-- The quoted regexp of a pattern name captures, over rendered well
formed attributes, exactly the value of the first attribute whose name
ends in that name. -/
theorem findQuoted_render (nm : LC) (hnm : nmOK nm) :
    ∀ l : AttrL, wfAttrs l →
      findQuoted (patNm nm) (renderAttrs l) = firstValBySfx nm l := by
  intro l
  induction l with
  | nil => intro _; rfl
  | cons nv l2 ih =>
    intro hwf
    obtain ⟨n, v⟩ := nv
    obtain ⟨hname, hval⟩ := hwf (n, v) (List.mem_cons_self _ _)
    have hwf2 : wfAttrs l2 := fun p hp => hwf p (List.mem_cons_of_mem _ hp)
    by_cases hsfx : nm <:+ n
    · rw [findQuoted, renderAttrs_cons,
        scan_chunk_hit nm hnm n v _ hname.2.1 hsfx hval.1 hval.2.1]
      rw [firstValBySfx, if_pos (List.isSuffixOf_iff_suffix.mpr hsfx)]
      rfl
    · rw [findQuoted, renderAttrs_cons,
        scan_chunk_skip nm hnm n v _ hname.2.1 hsfx hval.2.1 hval.2.2]
      rw [firstValBySfx,
        if_neg (fun hcon => hsfx (List.isSuffixOf_iff_suffix.mp hcon))]
      rw [← ih hwf2, findQuoted]
      cases hsp : splitQuotedAt (patNm nm) (renderAttrs l2) with
      | none => rfl
      | some x =>
        obtain ⟨b, cp, a⟩ := x
        rfl

/-- The src replacement over rendered well formed attributes updates the
value of the first attribute whose name ends in src and nothing else. -/
theorem replaceQuoted_render_src (v2 : LC) :
    ∀ l : AttrL, wfAttrs l →
      replaceQuotedWith (patNm (strL ("src"))) (patNm (strL ("src")) ++ v2 ++ ['\"'])
          (renderAttrs l) =
        renderAttrs (updateFirstSrc v2 l) := by
  intro l
  induction l with
  | nil => intro _; rfl
  | cons nv l2 ih =>
    intro hwf
    obtain ⟨n, v⟩ := nv
    obtain ⟨hname, hval⟩ := hwf (n, v) (List.mem_cons_self _ _)
    have hwf2 : wfAttrs l2 := fun p hp => hwf p (List.mem_cons_of_mem _ hp)
    by_cases hsfx : (strL ("src")) <:+ n
    · have hscan := scan_chunk_hit _ nmOK_src n v (renderAttrs l2)
        hname.2.1 hsfx hval.1 hval.2.1
      rw [renderAttrs_cons]
      simp only [replaceQuotedWith]
      rw [hscan]
      rw [updateFirstSrc,
        if_pos (by rw [hasSrcSfx]; exact List.isSuffixOf_iff_suffix.mpr hsfx)]
      rw [renderAttrs_cons]
      obtain ⟨u, hu⟩ := hsfx
      have hlen : u.length + 3 = n.length := by
        have := congrArg List.length hu
        simpa using this
      have htake : n.take (n.length - (strL ("src")).length) = u := by
        rw [← hu]
        rw [show (u ++ strL ("src")).length - (strL ("src")).length = u.length from by
          simp]
        exact List.take_left u (strL ("src"))
      rw [htake, ← hu]
      simp [renderAttr, patNm]
    · have hscan := scan_chunk_skip _ nmOK_src n v (renderAttrs l2)
        hname.2.1 hsfx hval.2.1 hval.2.2
      rw [renderAttrs_cons]
      simp only [replaceQuotedWith]
      rw [hscan]
      have hsfxB : ¬ (hasSrcSfx n = true) :=
        fun hcon => hsfx (List.isSuffixOf_iff_suffix.mp hcon)
      rw [updateFirstSrc, if_neg hsfxB]
      rw [renderAttrs_cons]
      have hih := ih hwf2
      simp only [replaceQuotedWith] at hih
      cases hsp : splitQuotedAt (patNm (strL ("src"))) (renderAttrs l2) with
      | none =>
        rw [hsp] at hih
        have hih2 : renderAttrs l2 = renderAttrs (updateFirstSrc v2 l2) := hih
        show renderAttr (n, v) ++ renderAttrs l2 =
          renderAttr (n, v) ++ renderAttrs (updateFirstSrc v2 l2)
        rw [hih2]
      | some x =>
        obtain ⟨b, cp, a⟩ := x
        rw [hsp] at hih
        have hih2 : b ++ (patNm (strL ("src")) ++ v2 ++ ['\"']) ++ a =
            renderAttrs (updateFirstSrc v2 l2) := hih
        show (renderAttr (n, v) ++ b) ++ (patNm (strL ("src")) ++ v2 ++ ['\"']) ++ a =
          renderAttr (n, v) ++ renderAttrs (updateFirstSrc v2 l2)
        rw [← hih2]
        simp

/-- Dropping trailing whitespace distributes over an append whose left
part ends with a quote. -/
theorem dropTrailingWs_append_quote (X b : LC) (hX : X.getLast? = some '\"') :
    dropTrailingWs (X ++ b) = X ++ dropTrailingWs b := by
  rw [dropTrailingWs, dropTrailingWs, List.reverse_append]
  rw [List.dropWhile_append]
  have hXrev : X.reverse.dropWhile isJsWs = X.reverse := by
    have hhead : X.reverse.head? = some '\"' := by
      rw [List.head?_reverse]
      exact hX
    cases hXr : X.reverse with
    | nil => rfl
    | cons c rest =>
      rw [hXr] at hhead
      have hc : c = '\"' := by
        simpa using hhead
      rw [List.dropWhile_cons,
        if_neg (by rw [hc]; intro hcon; exact absurd hcon (by decide))]
  by_cases hb : (b.reverse.dropWhile isJsWs).isEmpty = true
  · rw [if_pos hb, hXrev]
    rw [List.isEmpty_iff.mp hb]
    simp
  · rw [if_neg hb]
    simp

/-- src is a suffix of the marker name. -/
theorem src_sfx_marker : (strL ("src")) <:+ (strL ("data-orsrc")) := by decide

/-- Under the naming convention, a name ending in the marker name is the
marker name. -/
theorem marker_sfx_eq (n : LC) (hname : goodName n)
    (hsfx : (strL ("data-orsrc")) <:+ n) : n = strL ("data-orsrc") := by
  have hsrc : hasSrcSfx n = true := by
    rw [hasSrcSfx, List.isSuffixOf_iff_suffix]
    exact src_sfx_marker.trans hsfx
  rcases hname.2.2 hsrc with h | h
  · rw [h] at hsfx
    exact absurd hsfx (by decide)
  · exact h

/-- Under the naming convention, the marker regexp captures the value of
the first attribute named data-orsrc. -/
theorem firstValBySfx_marker :
    ∀ l : AttrL, wfAttrs l →
      firstValBySfx (strL ("data-orsrc")) l = firstMarkerVal l := by
  intro l
  induction l with
  | nil => intro _; rfl
  | cons nv l2 ih =>
    intro hwf
    obtain ⟨n, v⟩ := nv
    obtain ⟨hname, _⟩ := hwf (n, v) (List.mem_cons_self _ _)
    have hwf2 : wfAttrs l2 := fun p hp => hwf p (List.mem_cons_of_mem _ hp)
    by_cases hsfx : (strL ("data-orsrc")) <:+ n
    · rw [firstValBySfx, if_pos (List.isSuffixOf_iff_suffix.mpr hsfx)]
      rw [firstMarkerVal, if_pos (marker_sfx_eq n hname hsfx)]
    · rw [firstValBySfx,
        if_neg (fun hcon => hsfx (List.isSuffixOf_iff_suffix.mp hcon))]
      rw [firstMarkerVal, if_neg (fun hcon => hsfx (by rw [hcon]))]
      exact ih hwf2

/-- The marker removal over rendered well formed attributes removes the
first marker attribute together with its separating space. -/
theorem removeWs_render :
    ∀ l : AttrL, wfAttrs l →
      removeWsQuoted dataOrsrcPat (renderAttrs l) =
        renderAttrs (removeFirstMarker l) := by
  intro l
  induction l with
  | nil => intro _; rfl
  | cons nv l2 ih =>
    intro hwf
    obtain ⟨n, v⟩ := nv
    obtain ⟨hname, hval⟩ := hwf (n, v) (List.mem_cons_self _ _)
    have hwf2 : wfAttrs l2 := fun p hp => hwf p (List.mem_cons_of_mem _ hp)
    by_cases hsfx : (strL ("data-orsrc")) <:+ n
    · have hn := marker_sfx_eq n hname hsfx
      have hscan := scan_chunk_hit _ nmOK_marker n v (renderAttrs l2)
        hname.2.1 hsfx hval.1 hval.2.1
      rw [renderAttrs_cons]
      simp only [removeWsQuoted, dataOrsrcPat_eq]
      rw [hscan]
      rw [removeFirstMarker, if_pos hn, hn]
      show dropTrailingWs (' ' :: List.take
          ((strL ("data-orsrc")).length - (strL ("data-orsrc")).length)
          (strL ("data-orsrc"))) ++ renderAttrs l2 = renderAttrs l2
      rw [show dropTrailingWs (' ' :: List.take
          ((strL ("data-orsrc")).length - (strL ("data-orsrc")).length)
          (strL ("data-orsrc"))) = ([] : LC) from by decide]
      rw [List.nil_append]
    · have hscan := scan_chunk_skip _ nmOK_marker n v (renderAttrs l2)
        hname.2.1 hsfx hval.2.1 hval.2.2
      rw [renderAttrs_cons]
      simp only [removeWsQuoted, dataOrsrcPat_eq]
      rw [hscan]
      rw [removeFirstMarker,
        if_neg (fun hcon => hsfx (by rw [hcon]))]
      rw [renderAttrs_cons]
      have hih := ih hwf2
      simp only [removeWsQuoted, dataOrsrcPat_eq] at hih
      cases hsp : splitQuotedAt (patNm (strL ("data-orsrc"))) (renderAttrs l2) with
      | none =>
        rw [hsp] at hih
        have hih2 : renderAttrs l2 = renderAttrs (removeFirstMarker l2) := hih
        show renderAttr (n, v) ++ renderAttrs l2 =
          renderAttr (n, v) ++ renderAttrs (removeFirstMarker l2)
        rw [hih2]
      | some x =>
        obtain ⟨b, cp, a⟩ := x
        rw [hsp] at hih
        have hih2 : dropTrailingWs b ++ a = renderAttrs (removeFirstMarker l2) := hih
        show dropTrailingWs (renderAttr (n, v) ++ b) ++ a =
          renderAttr (n, v) ++ renderAttrs (removeFirstMarker l2)
        rw [dropTrailingWs_append_quote _ _ (renderAttr_getLast n v)]
        rw [← hih2]
        simp

/-- A successful association lookup is a membership. -/
theorem alookup_mem {β : Type} (k : LC) (v : β) :
    ∀ l : List (LC × β), alookup k l = some v → (k, v) ∈ l := by
  intro l
  induction l with
  | nil => intro h; cases h
  | cons q rest ih =>
    intro h
    obtain ⟨k2, w⟩ := q
    rw [alookup] at h
    by_cases hk : k2 = k
    · rw [if_pos hk] at h
      rw [← hk, Option.some.inj h]
      exact List.mem_cons_self _ _
    · rw [if_neg hk] at h
      exact List.mem_cons_of_mem _ (ih h)

/-- Updating the first src value with a well formed value keeps the
attribute list well formed. -/
theorem wfAttrs_update (v2 : LC) (hv2a : v2 ≠ []) (hv2b : ∀ c ∈ v2, c ≠ '\"')
    (hv2c : v2.getLast? ≠ some '=') :
    ∀ l : AttrL, wfAttrs l → wfAttrs (updateFirstSrc v2 l) := by
  intro l
  induction l with
  | nil => intro h; exact h
  | cons nv l2 ih =>
    intro hwf
    obtain ⟨n, v⟩ := nv
    obtain ⟨hname, hval⟩ := hwf (n, v) (List.mem_cons_self _ _)
    have hwf2 : wfAttrs l2 := fun p hp => hwf p (List.mem_cons_of_mem _ hp)
    rw [updateFirstSrc]
    by_cases hsfx : hasSrcSfx n = true
    · rw [if_pos hsfx]
      intro p hp
      rcases List.mem_cons.mp hp with rfl | hp2
      · exact ⟨hname, hv2a, hv2b, hv2c⟩
      · exact hwf p (List.mem_cons_of_mem _ hp2)
    · rw [if_neg hsfx]
      intro p hp
      rcases List.mem_cons.mp hp with rfl | hp2
      · exact ⟨hname, hval⟩
      · exact ih hwf2 p hp2

/-- The localized value spliced in by the rewrite is a well formed
attribute value. -/
theorem v2_good (m : List (LC × LC)) (hm : wfMap m) (u lp : LC)
    (hlk : alookup u m = some lp) :
    (strL ("../../") ++ lp) ≠ [] ∧ (∀ c ∈ strL ("../../") ++ lp, c ≠ '\"') ∧
      (strL ("../../") ++ lp).getLast? ≠ some '=' := by
  obtain ⟨hlpq, hlpe⟩ := hm (u, lp) (alookup_mem u lp m hlk)
  refine ⟨?_, ?_, ?_⟩
  · intro hcon
    exact absurd (List.append_eq_nil.mp hcon).1 (by decide)
  · intro c hc
    rcases List.mem_append.mp hc with h1 | h1
    · intro hcon
      subst hcon
      revert h1
      decide
    · exact hlpq c h1
  · cases hlp2 : lp with
    | nil => decide
    | cons d ds =>
      rw [List.getLast?_append_of_ne_nil _ (List.cons_ne_nil d ds)]
      rw [hlp2] at hlpe
      exact hlpe

/-- The replacement text of the sources is the src pattern followed by the
localized value and a closing quote. -/
theorem repl_shape (lp : LC) :
    strL ("src=\"../../") ++ lp ++ strL ("\"") =
      patNm (strL ("src")) ++ (strL ("../../") ++ lp) ++ ['\"'] := by
  have h1 : strL ("src=\"../../") = patNm (strL ("src")) ++ strL ("../../") := by decide
  have h2 : strL ("\"") = ['\"'] := by decide
  rw [h1, h2]
  simp [List.append_assoc]

/-- The rewrite callback of the Rewriter agrees, over rendered well formed
attributes, with the structured description: it updates the value of the
first src-suffixed attribute and removes the marker exactly as
structRewriteAttrs does. -/
theorem rewriteTagAttrs_refines (m : List (LC × LC)) (l : AttrL)
    (hwf : wfAttrs l) (hm : wfMap m) :
    rewriteTagAttrs m (renderAttrs l) = renderAttrs (structRewriteAttrs m l) := by
  have hfm : findQuoted dataOrsrcPat (renderAttrs l) = firstMarkerVal l := by
    rw [dataOrsrcPat_eq, findQuoted_render _ nmOK_marker l hwf, firstValBySfx_marker l hwf]
  have hfs : findQuoted srcPat (renderAttrs l) = firstValBySfx (strL ("src")) l := by
    rw [srcPat_eq, findQuoted_render _ nmOK_src l hwf]
  cases hmk : firstMarkerVal l with
  | some u =>
    have hf2 : findQuoted dataOrsrcPat (renderAttrs l) = some u := by rw [hfm, hmk]
    cases hlk : alookup u m with
    | some lp =>
      obtain ⟨hv2a, hv2b, hv2c⟩ := v2_good m hm u lp hlk
      have hrepl : replaceQuotedWith srcPat
          (strL ("src=\"../../") ++ lp ++ strL ("\"")) (renderAttrs l) =
          renderAttrs (updateFirstSrc (strL ("../../") ++ lp) l) := by
        rw [repl_shape lp, srcPat_eq]
        exact replaceQuoted_render_src _ l hwf
      have hwfup := wfAttrs_update _ hv2a hv2b hv2c l hwf
      have hrm := removeWs_render (updateFirstSrc (strL ("../../") ++ lp) l) hwfup
      simp only [rewriteTagAttrs, hf2, hlk]
      simp only [structRewriteAttrs, hmk, hlk]
      rw [hrepl, hrm]
    | none =>
      simp only [rewriteTagAttrs, hf2, hlk]
      simp only [structRewriteAttrs, hmk, hlk]
  | none =>
    have hf2 : findQuoted dataOrsrcPat (renderAttrs l) = none := by rw [hfm, hmk]
    cases hsv : firstValBySfx (strL ("src")) l with
    | some sv =>
      have hf3 : findQuoted srcPat (renderAttrs l) = some sv := by rw [hfs, hsv]
      cases hlk : alookup (normalizeUrl sv) m with
      | some lp =>
        obtain ⟨hv2a, hv2b, hv2c⟩ := v2_good m hm (normalizeUrl sv) lp hlk
        have hrepl : replaceQuotedWith srcPat
            (strL ("src=\"../../") ++ lp ++ strL ("\"")) (renderAttrs l) =
            renderAttrs (updateFirstSrc (strL ("../../") ++ lp) l) := by
          rw [repl_shape lp, srcPat_eq]
          exact replaceQuoted_render_src _ l hwf
        simp only [rewriteTagAttrs, hf2, hf3, hlk]
        simp only [structRewriteAttrs, hmk, hsv, hlk]
        exact hrepl
      | none =>
        simp only [rewriteTagAttrs, hf2, hf3, hlk]
        simp only [structRewriteAttrs, hmk, hsv, hlk]
    | none =>
      have hf3 : findQuoted srcPat (renderAttrs l) = none := by rw [hfs, hsv]
      simp only [rewriteTagAttrs, hf2, hf3]
      simp only [structRewriteAttrs, hmk, hsv]

/-- The Rewriter over a content string agrees with the structured rewrite
applied tag by tag. -/
theorem replaceImageUrls_refines (m : List (LC × LC)) (hm : wfMap m)
    (c : Content AttrL) (hwf : ∀ a ∈ tagsContent c, wfAttrs a) :
    replaceImageUrls m (mapContent renderAttrs c) =
      mapContent renderAttrs (mapContent (structRewriteAttrs m) c) := by
  simp only [replaceImageUrls, mapContent, List.map_map]
  apply List.map_congr_left
  intro p hp
  cases p with
  | text t => rfl
  | img a =>
    have ha : a ∈ tagsContent c :=
      List.mem_filterMap.mpr ⟨Piece.img a, hp, rfl⟩
    show Piece.img (rewriteTagAttrs m (renderAttrs a)) =
      Piece.img (renderAttrs (structRewriteAttrs m a))
    rw [rewriteTagAttrs_refines m a (hwf a ha) hm]

/-- The Rewriter over an optional content field. -/
theorem replaceImageUrls_refines_opt (m : List (LC × LC)) (hm : wfMap m)
    (oc : Option (Content AttrL))
    (hwf : ∀ a ∈ (oc.map tagsContent).getD [], wfAttrs a) :
    (oc.map (mapContent renderAttrs)).map (replaceImageUrls m) =
      (oc.map (mapContent (structRewriteAttrs m))).map (mapContent renderAttrs) := by
  cases oc with
  | none => rfl
  | some c =>
    simp only [Option.map_some', Option.some.injEq]
    exact replaceImageUrls_refines m hm c (by simpa using hwf)

/-- processQuestion agrees with the structured rewrite applied to every
tag of the question. -/
theorem processQuestion_refines (m : List (LC × LC)) (hm : wfMap m)
    (q : Question AttrL) (hwf : ∀ a ∈ tagsQ q, wfAttrs a) :
    processQuestion m (mapQ renderAttrs q) =
      mapQ renderAttrs (mapQ (structRewriteAttrs m) q) := by
  obtain ⟨qq, qrest⟩ := q
  cases qq with
  | none => rfl
  | some w =>
    obtain ⟨wen, wrest⟩ := w
    cases wen with
    | none => rfl
    | some en =>
      obtain ⟨ec, eo, ee, er⟩ := en
      simp only [tagsQ, tagsQEn] at hwf
      have hwfc : ∀ a ∈ (ec.map tagsContent).getD [], wfAttrs a := by
        intro a ha
        exact hwf a (List.mem_append_left _ (List.mem_append_left _ ha))
      have hwfe : ∀ a ∈ (ee.map tagsContent).getD [], wfAttrs a := by
        intro a ha
        exact hwf a (List.mem_append_right _ ha)
      simp only [mapQ, mapQEn, Option.map_some', processQuestion]
      simp only [Question.mk.injEq, Option.some.injEq, QWrap.mk.injEq,
        QuestionEn.mk.injEq]
      refine ⟨⟨⟨?_, ?_, ?_, trivial⟩, trivial⟩, trivial⟩
      · exact replaceImageUrls_refines_opt m hm ec hwfc
      · cases eo with
        | none => rfl
        | some obs =>
          simp only [Option.map_some', Option.some.injEq, List.map_map]
          apply List.map_congr_left
          intro ob hob
          obtain ⟨obc, obrest⟩ := ob
          simp only [Function.comp, mapOB, OptionBlock.mk.injEq]
          refine ⟨?_, trivial⟩
          apply replaceImageUrls_refines_opt m hm obc
          intro a ha
          apply hwf
          apply List.mem_append_left
          apply List.mem_append_right
          simp only [Option.map_some', Option.getD_some]
          exact List.mem_flatten.mpr
            ⟨(obc.map tagsContent).getD [],
             List.mem_map.mpr ⟨⟨obc, obrest⟩, hob, rfl⟩, ha⟩
      · exact replaceImageUrls_refines_opt m hm ee hwfe

/-- The whole record transformation agrees with the structured rewrite
applied to every embedded tag: subjects, question order and all other
fields are preserved by construction of the structured side. -/
theorem processJsonFile_refines (m : List (LC × LC)) (hm : wfMap m)
    (r : Record AttrL) (hwf : ∀ a ∈ tagsRecord r, wfAttrs a) :
    processJsonFile m (mapRecord renderAttrs r) =
      mapRecord renderAttrs (mapRecord (structRewriteAttrs m) r) := by
  obtain ⟨res, rrest⟩ := r
  cases res with
  | none => rfl
  | some subs =>
    simp only [tagsRecord, Option.map_some', Option.getD_some] at hwf
    simp only [mapRecord, Option.map_some', processJsonFile]
    simp only [Record.mk.injEq, Option.some.injEq, List.map_map]
    refine ⟨?_, trivial⟩
    apply List.map_congr_left
    intro sd hsd
    obtain ⟨sq, srest⟩ := sd
    cases sq with
    | none => rfl
    | some qs =>
      show (match (mapSubj renderAttrs ⟨some qs, srest⟩).questions with
        | none => mapSubj renderAttrs ⟨some qs, srest⟩
        | some qs2 => { mapSubj renderAttrs ⟨some qs, srest⟩ with
            questions := some (qs2.map (processQuestion m)) }) =
        mapSubj renderAttrs (mapSubj (structRewriteAttrs m) ⟨some qs, srest⟩)
      simp only [mapSubj, Option.map_some']
      simp only [Subject.mk.injEq, Option.some.injEq, List.map_map]
      refine ⟨?_, trivial⟩
      apply List.map_congr_left
      intro q hq
      apply processQuestion_refines m hm q
      intro a ha
      apply hwf
      refine List.mem_flatten.mpr ⟨tagsSubj ⟨some qs, srest⟩,
        List.mem_map.mpr ⟨⟨some qs, srest⟩, hsd, rfl⟩, ?_⟩
      show a ∈ (((some qs).map (fun qs2 => (qs2.map tagsQ).flatten)).getD [])
      simp only [Option.map_some', Option.getD_some]
      exact List.mem_flatten.mpr ⟨tagsQ q, List.mem_map.mpr ⟨q, hq, rfl⟩, ha⟩

/-- C9 counterexample: on a tag with a lowsrc attribute before its src
attribute, the src regexp of the rewrite matches inside lowsrc, so the
value of the lowsrc attribute, a field that is neither the src attribute
nor the marker, changes while the genuine src attribute keeps its remote
value.  This refutes the frame claim over all raw records. -/
theorem C9_counterexample :
    rewriteTagAttrs c9map c9attrs =
      strL (" lowsrc=\"../../images/h/a.png\" src=\"https://h/b.png\"") ∧
    findQuoted (strL ("lowsrc=\"")) c9attrs = some (strL ("https://h/a.png")) ∧
    findQuoted (strL ("lowsrc=\"")) (rewriteTagAttrs c9map c9attrs) =
      some (strL ("../../images/h/a.png")) :=
  ⟨by decide, by decide, by decide⟩

/-- C9 (amended): over records whose img tags follow the attribute
convention (rendered well formed attribute lists, in which the only names
ending in src are src and the marker) and a well formed image map, the
localized record equals the record with the structured per-tag rewrite
mapped over it: same subjects, same questions in the same order, and every
field other than src-suffixed attribute values and the removed marker
unchanged; additionally the subject list, the per-subject question counts
and the untouched subject fields coincide with the source record. -/
theorem C9_frame_amended (m : List (LC × LC)) (r : Record AttrL)
    (hwf : ∀ a ∈ tagsRecord r, wfAttrs a) (hm : wfMap m) :
    processJsonFile m (mapRecord renderAttrs r) =
      mapRecord renderAttrs (mapRecord (structRewriteAttrs m) r) ∧
    (processJsonFile m (mapRecord renderAttrs r)).results.map
        (fun subs => subs.map (fun sd => (sd.questions.map List.length, sd.rest))) =
      (mapRecord renderAttrs r).results.map
        (fun subs => subs.map (fun sd => (sd.questions.map List.length, sd.rest))) := by
  constructor
  · exact processJsonFile_refines m hm r hwf
  · rw [processJsonFile_refines m hm r hwf]
    obtain ⟨res, rrest⟩ := r
    cases res with
    | none => rfl
    | some subs =>
      simp only [mapRecord, Option.map_some', List.map_map, Option.some.injEq]
      apply List.map_congr_left
      intro sd _
      obtain ⟨sq, srest⟩ := sd
      cases sq with
      | none => rfl
      | some qs =>
        simp [Function.comp, mapSubj]

/-- C9 witness: the amended frame statement instantiated on a concrete
one-question record with a conventional tag. -/
theorem C9_witness :
    processJsonFile c9map (mapRecord renderAttrs c9rec) =
      mapRecord renderAttrs (mapRecord (structRewriteAttrs c9map) c9rec) :=
  (C9_frame_amended c9map c9rec (by decide) (by decide)).1
